import Mathlib

/-!
# go-debian `control` package: paragraph scanner and marshaller

A shallow embedding of `control/parse.go` and `control/encode.go`.

Go strings are modelled as `List Char`.  Every byte the code inspects
(`'\n'`, `' '`, `'\t'`, `'\r'`, `'#'`, `':'`, `'.'`, `'-'`) is ASCII, so a
list of characters and a list of bytes behave alike for these functions.
A `bufio.Reader` over an in-memory buffer is modelled by the text it still
has to deliver.  Loops are driven by a fuel argument that is initialised to
one more than the length of the unread text; each iteration that continues
consumes at least one character, so the fuel never runs out.
-/

set_option autoImplicit false

namespace Control

/-- Go `string`. -/
abbrev Str := List Char

/-! ## Library functions used by the package -/

/-- Go `strings.TrimLeft(s, cutset)`. -/
def TrimLeft (s cutset : Str) : Str :=
  s.dropWhile (fun c => decide (c ∈ cutset))

/-- Go `strings.TrimRight(s, cutset)`. -/
def TrimRight (s cutset : Str) : Str :=
  (s.reverse.dropWhile (fun c => decide (c ∈ cutset))).reverse

/-- Go `strings.Trim(s, cutset)`. -/
def Trim (s cutset : Str) : Str :=
  TrimRight (TrimLeft s cutset) cutset

/-- Go `strings.SplitN(s, sep, 2)` for a one-character separator: the text
before the first separator and the text after it, or the whole text alone
when there is no separator. -/
def SplitN2 (s : Str) (sep : Char) : List Str :=
  match s.span (fun c => decide (c ≠ sep)) with
  | (a, []) => [a]
  | (a, _ :: b) => [a, b]

/-- Scan of `strings.Replace(s, old, new, -1)` for a non-empty `old`:
`skip` counts the characters of a match that are still to be dropped. -/
def replaceScan (old new : Str) : Nat → Str → Str
  | _, [] => []
  | skip + 1, _ :: cs => replaceScan old new skip cs
  | 0, c :: cs =>
    if old.isPrefixOf (c :: cs) then new ++ replaceScan old new (old.length - 1) cs
    else c :: replaceScan old new 0 cs

/-- Go `strings.Replace(s, old, new, -1)`: every non-overlapping occurrence
of `old`, found from left to right, is replaced by `new`.  For an empty `old`
Go inserts `new` before every character and at the end. -/
def Replace (s old new : Str) : Str :=
  match old with
  | [] => new ++ s.flatMap (fun c => c :: new)
  | _ :: _ => replaceScan old new 0 s

/-- Go `bufio.Reader.ReadString('\n')` on an in-memory reader: the text up to
and including the first newline and the rest of the reader, with `eof = false`;
or, when no newline is left, all remaining text with `eof = true`. -/
def ReadString (reader : Str) : Str × Str × Bool :=
  match reader.span (fun c => decide (c ≠ '\n')) with
  | (a, []) => (a, [], true)
  | (a, nl :: rest) => (a ++ [nl], rest, false)

/-! ## Data model -/

/-- Go `error` values that occur in the package: `io.EOF`, an error built by
`fmt.Errorf` from a format string and its single argument, and an error
handed over by a collaborator. -/
inductive GoError where
  | EOF
  | Errorf (format : Str) (arg : Str)
  | External (msg : Str)
deriving DecidableEq, Repr

/-- Result of a call that may end in a run-time panic. -/
inductive Outcome (α : Type) where
  | ret (a : α)
  | panic
deriving DecidableEq, Repr

/-- Go `map[string]string` as an association list with one entry per key. -/
abbrev StrMap := List (Str × Str)

/-- Map read `m[k]`; a missing key reads as the empty string. -/
def StrMap.get (m : StrMap) (k : Str) : Str :=
  match m with
  | [] => []
  | (k', v) :: rest => if k' = k then v else StrMap.get rest k

/-- Map write `m[k] = v`. -/
def StrMap.set (m : StrMap) (k v : Str) : StrMap :=
  match m with
  | [] => [(k, v)]
  | (k', v') :: rest => if k' = k then (k, v) :: rest else (k', v') :: StrMap.set rest k v

/-- Keys of the map. -/
def StrMap.keys (m : StrMap) : List Str := m.map Prod.fst

/-- Go `type Paragraph struct { Values map[string]string; Order []string }`. -/
structure Paragraph where
  Values : StrMap
  Order : List Str
deriving DecidableEq, Repr

/-! ## `parse.go` -/

/-- The cutset `noop` of `parseParagraph`. -/
def noop : Str := [' ', '\n', '\r', '\t']

/-- The format string of the syntax error. -/
def notKeyValFormat : Str := "Line %q is not 'key: val'".toList

/-- The `for` loop of `parseParagraph`, with the local state `ret`, `key`.
Returns the paragraph pointer (or nil), the error (or nil) and the reader. -/
def parseParagraphLoop : Nat → Str → Paragraph → Str → Option Paragraph × Option GoError × Str
  | 0, reader, _, _ => (none, none, reader)
  | fuel + 1, reader, ret, key =>
    match ReadString reader with
    | (_, reader', true) =>
      if ret.Order.length = 0 then (none, some GoError.EOF, reader')
      else (some ret, some GoError.EOF, reader')
    | (line, reader', false) =>
      if line = ['\n'] then (some ret, none, reader')
      else if (TrimLeft line noop).head? = some '#' then
        parseParagraphLoop fuel reader' ret key
      else if line.head? = some ' ' then
        parseParagraphLoop fuel reader'
          { ret with Values := ret.Values.set key (ret.Values.get key ++ '\n' :: Trim line.tail noop) }
          key
      else
        match SplitN2 line ':' with
        | [a, b] =>
          parseParagraphLoop fuel reader'
            { Values := ret.Values.set (Trim a noop) (Trim b noop),
              Order := ret.Order ++ [Trim a noop] }
            (Trim a noop)
        | _ => (none, some (GoError.Errorf notKeyValFormat line), reader')

/-- Go `parseParagraph(reader)`. -/
def parseParagraph (reader : Str) : Option Paragraph × Option GoError × Str :=
  parseParagraphLoop (reader.length + 1) reader { Values := [], Order := [] } []

/-- The `for` loop of `parseParagraphs`, with the local state `ret`.
Dereferencing a nil paragraph pointer panics. -/
def parseParagraphsLoop : Nat → Str → List Paragraph → Outcome (List Paragraph × Option GoError)
  | 0, _, _ => Outcome.panic
  | fuel + 1, reader, ret =>
    match parseParagraph reader with
    | (para, some GoError.EOF, _) =>
      match para with
      | some p => Outcome.ret (ret ++ [p], none)
      | none => Outcome.panic
    | (_, some err, _) => Outcome.ret ([], some err)
    | (para, none, reader') =>
      match para with
      | some p => parseParagraphsLoop fuel reader' (ret ++ [p])
      | none => Outcome.panic

/-- Go `parseParagraphs(reader)`. -/
def parseParagraphs (reader : Str) : Outcome (List Paragraph × Option GoError) :=
  parseParagraphsLoop (reader.length + 1) reader []

/-- Go `clearsign.Block`, as far as the package reads it: the signed
cleartext and the body of the armored signature. -/
structure Block where
  Bytes : Str
  ArmoredSignatureBody : Str
deriving DecidableEq, Repr

/-- The literal compared with the first 15 bytes of the reader. -/
def armorMagic : Str := "-----BEGIN PGP ".toList

/-- Go `ParseParagraphs(reader, keyring)`.  The two collaborators are
parameters: `Decode` is `clearsign.Decode` (a nil block is `none`) and
`CheckDetachedSignature` is `openpgp.CheckDetachedSignature`.  A nil keyring
is `none`.  Reading an in-memory reader to its end cannot fail, so the error
branch of `ioutil.ReadAll` has no counterpart.  Reading a field of a nil
block panics. -/
def ParseParagraphs {KeyRing Entity : Type}
    (Decode : Str → Option Block)
    (CheckDetachedSignature : KeyRing → Str → Str → Option Entity × Option GoError)
    (reader : Str) (keyring : Option KeyRing) :
    Outcome (List Paragraph × Option Entity × Option GoError) :=
  let scan (cleartext : Str) (signer : Option Entity) :
      Outcome (List Paragraph × Option Entity × Option GoError) :=
    match parseParagraphs cleartext with
    | Outcome.ret (paragraphs, err) => Outcome.ret (paragraphs, signer, err)
    | Outcome.panic => Outcome.panic
  if reader.take 15 = armorMagic then
    match Decode reader, keyring with
    | none, _ => Outcome.panic
    | some block, none => scan block.Bytes none
    | some block, some kr =>
      match CheckDetachedSignature kr block.Bytes block.ArmoredSignatureBody with
      | (signer, some err) => Outcome.ret ([], signer, some err)
      | (signer, none) => scan block.Bytes signer
  else scan reader none

/-! ## `encode.go` -/

/-- Go `reflect.StructField`, as far as the package reads it: the field name,
the values of the `control` and `delim` tags (empty when absent) and the
embedded-field flag. -/
structure StructField where
  Name : Str
  controlTag : Str
  delimTag : Str
  Anonymous : Bool
deriving DecidableEq, Repr

/-- Go `reflect.Value`, by kind.  A struct carries the result of its
`MarshalControl` method when a pointer to it implements `Marshalable`, and
its fields; values of the other kinds are of types without that method.  A
pointer is nil or points to a value.  Kinds the package does not single out
carry only the text of their type.  Values are reached through exported
fields: the panic of `Interface` on a value reached through an unexported
field has no counterpart. -/
inductive Value where
  | String (s : Str)
  | Int (i : Int)
  | Slice (elems : List Value)
  | Struct (marshalControl : Option (Str × Option GoError)) (fields : List (StructField × Value))
  | Ptr (typeString : Str) (elem : Value)
  | NilPtr (typeString : Str)
  | Other (typeString : Str)

/-- Go `strconv.Itoa`. -/
def Itoa (i : Int) : Str :=
  if i < 0 then '-' :: Nat.toDigits 10 i.natAbs else Nat.toDigits 10 i.toNat

/-- Go `strings.Join`. -/
def Join (elems : List Str) (sep : Str) : Str := sep.intercalate elems

/-- Go `dotEncodeValue`. -/
def dotEncodeValue (out : Str) : Str :=
  let el := Replace out ['\n'] ['\n', ' ']
  Replace el ['\n', ' ', '\n'] ['\n', ' ', '.', '\n']

/-- Go `marshalStructValueStruct`.  `reflect.Value.Addr` panics on a value
that is not addressable.  The name of the unnamed pointer type `elem.Type()`
is empty.  The value is taken to be reached through exported fields, where
`Interface` does not panic. -/
def marshalStructValueStruct (addressable : Bool)
    (marshalControl : Option (Str × Option GoError)) : Outcome (Str × Option GoError) :=
  if addressable then
    match marshalControl with
    | some result => Outcome.ret result
    | none =>
      Outcome.ret ([], some (GoError.Errorf
        "%s doesn't implement the Marshalable interface".toList []))
  else Outcome.panic

mutual
/-- Go `marshalStructValue(incoming, fieldType)`; `addressable` tells whether
`incoming` can be addressed. -/
def marshalStructValue (addressable : Bool) (fieldType : StructField) :
    Value → Outcome (Str × Option GoError)
  | Value.String s => Outcome.ret (s, none)
  | Value.Int i => Outcome.ret (Itoa i, none)
  | Value.Slice elems =>
    match marshalStructValueSliceLoop fieldType elems with
    | Outcome.ret (ret, none) =>
      Outcome.ret (Join ret (if fieldType.delimTag ≠ [] then fieldType.delimTag else [' ']), none)
    | Outcome.ret (_, some err) => Outcome.ret ([], some err)
    | Outcome.panic => Outcome.panic
  | Value.Struct marshalControl _ => marshalStructValueStruct addressable marshalControl
  | Value.Ptr typeString _ =>
    Outcome.ret ([], some (GoError.Errorf "Unknown type of field: %s".toList typeString))
  | Value.NilPtr typeString =>
    Outcome.ret ([], some (GoError.Errorf "Unknown type of field: %s".toList typeString))
  | Value.Other typeString =>
    Outcome.ret ([], some (GoError.Errorf "Unknown type of field: %s".toList typeString))
/-- The `for` loop of `marshalStructValueSlice`: the renderings of the
elements, or the first error.  Elements of a slice are addressable. -/
def marshalStructValueSliceLoop (fieldType : StructField) :
    List Value → Outcome (List Str × Option GoError)
  | [] => Outcome.ret ([], none)
  | v :: vs =>
    match marshalStructValue true fieldType v with
    | Outcome.ret (data, none) =>
      match marshalStructValueSliceLoop fieldType vs with
      | Outcome.ret (ret, none) => Outcome.ret (data :: ret, none)
      | other => other
    | Outcome.ret (_, some err) => Outcome.ret ([], some err)
    | Outcome.panic => Outcome.panic
end

/-- The paragraph key of a field: the `control` tag, or the field name. -/
def paragraphKey (fieldType : StructField) : Str :=
  if fieldType.controlTag ≠ [] then fieldType.controlTag else fieldType.Name

/-- The `for` loop of `marshalStruct` over the fields, with the local `ret`.
Fields of an addressable struct are addressable. -/
def marshalStructLoop (addressable : Bool) :
    List (StructField × Value) → Str → Outcome (Str × Option GoError)
  | [], ret => Outcome.ret (ret, none)
  | (fieldType, field) :: rest, ret =>
    if paragraphKey fieldType = ['-'] ∨ fieldType.Anonymous = true then
      marshalStructLoop addressable rest ret
    else
      match marshalStructValue addressable fieldType field with
      | Outcome.ret (_, some err) => Outcome.ret ([], some err)
      | Outcome.ret (val, none) =>
        if dotEncodeValue val ≠ [] then
          marshalStructLoop addressable rest
            (ret ++ (paragraphKey fieldType ++ ':' :: ' ' :: dotEncodeValue val ++ ['\n']))
        else marshalStructLoop addressable rest ret
      | Outcome.panic => Outcome.panic

/-- Go `marshalStruct(incoming)`; `NumField` panics on a value that is not a
struct. -/
def marshalStruct (addressable : Bool) : Value → Outcome (Str × Option GoError)
  | Value.Struct _ fields => marshalStructLoop addressable fields []
  | _ => Outcome.panic

/-- Go `marshal(incoming)`: pointers are followed, and what a pointer points
to is addressable.  `Elem` of a nil pointer is the zero `Value`, and `Type` of
the zero `Value` panics. -/
def marshal (addressable : Bool) : Value → Outcome (Str × Option GoError)
  | Value.Ptr _ elem => marshal true elem
  | Value.NilPtr _ => Outcome.panic
  | v => marshalStruct addressable v

/-- Go `Marshal(incoming)`: the value held by the interface is not
addressable. -/
def Marshal (incoming : Value) : Outcome (Str × Option GoError) :=
  marshal false incoming

/-! ## Vocabulary of the statements -/

/-- The text `k: v` followed by a newline, as `marshalStruct` writes it. -/
def fieldLine (kv : Str × Str) : Str :=
  kv.1 ++ ':' :: ' ' :: kv.2 ++ ['\n']

/-- A key that the scanner reads back unchanged: trimming leaves it alone, it
has no colon and no newline, and it does not start with `#`. -/
def wellFormedKey (k : Str) : Prop :=
  Trim k noop = k ∧ ':' ∉ k ∧ '\n' ∉ k ∧ k.head? ≠ some '#'

instance (k : Str) : Decidable (wellFormedKey k) := by
  unfold wellFormedKey; infer_instance

/-- A line that `parseParagraph` skips as a comment: its first character
after left-trimming is `#`. -/
def isComment (line : Str) : Prop :=
  (TrimLeft line noop).head? = some '#'

instance (line : Str) : Decidable (isComment line) := by
  unfold isComment; infer_instance

/-- A line of one of the classes that `parseParagraph` takes: blank, comment,
continuation or field. -/
def acceptedLine (line : Str) : Prop :=
  line = ['\n'] ∨ isComment line ∨ line.head? = some ' ' ∨ ':' ∈ line

instance (line : Str) : Decidable (acceptedLine line) := by
  unfold acceptedLine; infer_instance

/-- The first line of a text and its further lines, split at the newlines. -/
def lines : Str → Str × List Str
  | [] => ([], [])
  | c :: cs =>
    if c = '\n' then ([], (lines cs).1 :: (lines cs).2)
    else (c :: (lines cs).1, (lines cs).2)

/-- A first line and further lines put together with newlines between. -/
def joinLines (l0 : Str) (ls : List Str) : Str :=
  l0 ++ ls.flatMap (fun l => '\n' :: l)

/-- What the escaper does to the lines after the first: an empty line that
has a successor is written as a lone `.`, and the search for the next empty
line resumes after that successor. -/
def dotLines : List Str → List Str
  | [] => []
  | [l] => [l]
  | l :: l' :: rest =>
    if l = [] then ['.'] :: l' :: dotLines rest else l :: dotLines (l' :: rest)

/-- The text of continuation lines: each line after a space and before a
newline. -/
def continuationLines (ls : List Str) : Str :=
  ls.flatMap (fun l => ' ' :: l ++ ['\n'])

/-- A line that the scanner reads back unchanged: it has no newline and
trimming leaves it alone. -/
def cleanLine (l : Str) : Prop :=
  '\n' ∉ l ∧ Trim l noop = l

instance (l : Str) : Decidable (cleanLine l) := by
  unfold cleanLine; infer_instance

/-- A value all of whose lines are read back unchanged: every line is clean
and no line after the first starts with `#`. -/
def cleanValue (v : Str) : Prop :=
  cleanLine (lines v).1 ∧ ∀ l ∈ (lines v).2, cleanLine l ∧ l.head? ≠ some '#'

instance (v : Str) : Decidable (cleanValue v) := by
  unfold cleanValue; infer_instance

/-- The value that the scanner reads back from the escaped form of `v`: the
lines of `v` with the lone dots written by the escaper. -/
def readBack (v : Str) : Str :=
  joinLines (lines v).1 (dotLines (lines v).2)

/-- A field that `marshalStruct` skips: its paragraph key is `-` or it is an
embedded field. -/
def skipped (fieldType : StructField) : Prop :=
  paragraphKey fieldType = ['-'] ∨ fieldType.Anonymous = true

instance (fieldType : StructField) : Decidable (skipped fieldType) := by
  unfold skipped; infer_instance

/-- A record handed to `Marshal` by value, or through one pointer. -/
def recordValue (byPointer : Bool) (typeString : Str)
    (marshalControl : Option (Str × Option GoError))
    (fields : List (StructField × Value)) : Value :=
  if byPointer then Value.Ptr typeString (Value.Struct marshalControl fields)
  else Value.Struct marshalControl fields

/-- The loop of `parseParagraph` run with sufficient fuel. -/
def scanLines (reader : Str) (ret : Paragraph) (key : Str) :
    Option Paragraph × Option GoError × Str :=
  parseParagraphLoop (reader.length + 1) reader ret key

/-- The loop of `parseParagraphs` run with sufficient fuel. -/
def scanParagraphs (reader : Str) (ret : List Paragraph) :
    Outcome (List Paragraph × Option GoError) :=
  parseParagraphsLoop (reader.length + 1) reader ret

/-- How the loop of `parseParagraph` leaves a run of complete lines: a blank
line closed the paragraph, a line of no class failed, or all lines were taken
and the loop goes on with the state `ret`, `key`.  The lines not yet read are
kept. -/
inductive BlockEnd where
  | closed (ret : Paragraph) (unread : List Str)
  | failed (line : Str) (unread : List Str)
  | running (ret : Paragraph) (key : Str)
deriving DecidableEq, Repr

/-- The loop of `parseParagraph` over a run of complete lines, given without
their newlines. -/
def runLines : List Str → Paragraph → Str → BlockEnd
  | [], ret, key => BlockEnd.running ret key
  | b :: bs, ret, key =>
    if b ++ ['\n'] = ['\n'] then BlockEnd.closed ret bs
    else if (TrimLeft (b ++ ['\n']) noop).head? = some '#' then runLines bs ret key
    else if (b ++ ['\n']).head? = some ' ' then
      runLines bs
        { ret with Values := ret.Values.set key (ret.Values.get key ++ '\n' :: Trim (b ++ ['\n']).tail noop) }
        key
    else
      match SplitN2 (b ++ ['\n']) ':' with
      | [a, c] =>
        runLines bs
          { Values := ret.Values.set (Trim a noop) (Trim c noop),
            Order := ret.Order ++ [Trim a noop] }
          (Trim a noop)
      | _ => BlockEnd.failed (b ++ ['\n']) bs

/-- The text of a run of complete lines. -/
def linesText (bs : List Str) : Str :=
  bs.flatMap (fun b => b ++ ['\n'])

/-- A field line: a line that is not blank, is not a comment, does not start
with a space and contains a colon. -/
def isFieldLine (line : Str) : Prop :=
  line ≠ ['\n'] ∧ ¬ isComment line ∧ line.head? ≠ some ' ' ∧ ':' ∈ line

instance (line : Str) : Decidable (isFieldLine line) := by
  unfold isFieldLine; infer_instance

/-- A continuation line: a line that starts with a space and is not a
comment. -/
def isContinuationLine (line : Str) : Prop :=
  ¬ isComment line ∧ line.head? = some ' '

instance (line : Str) : Decidable (isContinuationLine line) := by
  unfold isContinuationLine; infer_instance

/-- The key of a field line: the text before its first colon, trimmed. -/
def fieldKey (line : Str) : Str :=
  Trim (line.takeWhile (fun c => decide (c ≠ ':'))) noop

/-- The value of a field line: the text after its first colon, trimmed. -/
def fieldValue (line : Str) : Str :=
  Trim (line.dropWhile (fun c => decide (c ≠ ':'))).tail noop

/-- What the continuation lines that directly follow a field line add to its
value: for every continuation line up to the next field line, comments left
out, a newline and the trimmed remainder of the line. -/
def continuationText (after : List Str) : Str :=
  ((after.takeWhile (fun b => decide (¬ isFieldLine (b ++ ['\n'])))).filter
    (fun b => decide (isContinuationLine (b ++ ['\n'])))).flatMap
    (fun b => '\n' :: Trim (b ++ ['\n']).tail noop)

/-- A line of a block: complete, not blank, and of one of the classes that
`parseParagraph` takes. -/
def blockLine (b : Str) : Prop :=
  '\n' ∉ b ∧ b ++ ['\n'] ≠ ['\n'] ∧ acceptedLine (b ++ ['\n'])

instance (b : Str) : Decidable (blockLine b) := by
  unfold blockLine; infer_instance

/-- The line that the claim about `marshalStruct` describes for one field:
nothing for a skipped field or an empty escaped rendering, else the key, a
colon and a space, the escaped rendering and a newline. -/
def referenceLine (addressable : Bool) (fv : StructField × Value) : Str :=
  if skipped fv.1 then []
  else
    match marshalStructValue addressable fv.1 fv.2 with
    | Outcome.ret (val, none) =>
      if dotEncodeValue val = [] then []
      else paragraphKey fv.1 ++ [':', ' '] ++ dotEncodeValue val ++ ['\n']
    | _ => []

/-- The text that the claim about `marshalStruct` describes: the lines of the
fields in declared order, with nothing between them. -/
def referenceText (addressable : Bool) (fields : List (StructField × Value)) : Str :=
  fields.flatMap (referenceLine addressable)

/-- The delimiter of a sequence field: the `delim` tag, or a single space. -/
def fieldDelim (fieldType : StructField) : Str :=
  if fieldType.delimTag ≠ [] then fieldType.delimTag else [' ']

/-- The lines after the first with every empty line that has a successor
written as a lone `.`. -/
def keepDots : List Str → List Str
  | [] => []
  | [l] => [l]
  | l :: l' :: rest => (if l = [] then ['.'] else l) :: keepDots (l' :: rest)

/-- The value `v` with every blank line (an empty line after the first line
that is followed by another line) written as a lone `.`. -/
def dottedValue (v : Str) : Str :=
  joinLines (lines v).1 (keepDots (lines v).2)

/-- Whether a pointer to the value implements `Marshalable`: in the model
only a struct carries that capability. -/
def implementsMarshalable : Value → Bool
  | Value.Struct (some _) _ => true
  | _ => false

/-! ## Facts about the library functions -/

theorem span_append_stop {α : Type} (p : α → Bool) (body : List α) (c : α) (rest : List α)
    (hb : ∀ x ∈ body, p x = true) (hc : p c = false) :
    (body ++ c :: rest).span p = (body, c :: rest) := by
  induction body with
  | nil => simp [List.span_eq_take_drop, List.takeWhile_cons, List.dropWhile_cons, hc]
  | cons x xs ih =>
    have hx : p x = true := hb x (by simp)
    have ih' := ih (fun y hy => hb y (by simp [hy]))
    simp only [List.span_eq_take_drop, Prod.mk.injEq] at ih' ⊢
    simp [List.takeWhile_cons, List.dropWhile_cons, hx, ih'.1, ih'.2]

theorem span_all {α : Type} (p : α → Bool) (body : List α)
    (hb : ∀ x ∈ body, p x = true) : body.span p = (body, []) := by
  induction body with
  | nil => simp [List.span_eq_take_drop]
  | cons x xs ih =>
    have hx : p x = true := hb x (by simp)
    have ih' := ih (fun y hy => hb y (by simp [hy]))
    simp only [List.span_eq_take_drop, Prod.mk.injEq] at ih' ⊢
    simp [List.takeWhile_cons, List.dropWhile_cons, hx, ih'.1, ih'.2]

theorem span_stop_inv {α : Type} (p : α → Bool) (l a : List α) (c : α) (rest : List α)
    (h : l.span p = (a, c :: rest)) :
    (∀ x ∈ a, p x = true) ∧ p c = false ∧ l = a ++ c :: rest := by
  simp only [List.span_eq_take_drop, Prod.mk.injEq] at h
  refine ⟨?_, ?_, ?_⟩
  · intro x hx
    rw [← h.1] at hx
    exact List.mem_takeWhile_imp hx
  · have := List.head_dropWhile_not p l (by rw [h.2]; simp)
    simpa [h.2] using this
  · rw [← h.1, ← h.2]; exact (List.takeWhile_append_dropWhile p l).symm

/-- Reading a complete line. -/
theorem ReadString_line (body rest : Str) (h : '\n' ∉ body) :
    ReadString (body ++ '\n' :: rest) = (body ++ ['\n'], rest, false) := by
  unfold ReadString
  rw [span_append_stop _ body '\n' rest (fun x hx => by
    have : x ≠ '\n' := fun e => h (e ▸ hx)
    simpa using this) (by simp)]

/-- Reading at the end of the text, or an unterminated last line. -/
theorem ReadString_eof (body : Str) (h : '\n' ∉ body) :
    ReadString body = (body, [], true) := by
  unfold ReadString
  rw [span_all _ body (fun x hx => by
    have : x ≠ '\n' := fun e => h (e ▸ hx)
    simpa using this)]

/-- A read that does not hit the end of the text returns a line ending in the
first newline of the text, and the text after it. -/
theorem ReadString_ok (reader line rest : Str) (h : ReadString reader = (line, rest, false)) :
    ∃ body, '\n' ∉ body ∧ line = body ++ ['\n'] ∧ reader = body ++ '\n' :: rest := by
  unfold ReadString at h
  split at h
  · simp at h
  · rename_i a nl rest' hs
    simp only [Prod.mk.injEq, and_true] at h
    obtain ⟨ha, hnl, hr⟩ := span_stop_inv _ _ _ _ _ hs
    have hnl' : nl = '\n' := by simpa using hnl
    refine ⟨a, ?_, ?_, ?_⟩
    · intro hmem
      have := ha _ hmem
      simp at this
    · rw [← h.1, hnl']
    · rw [hr, hnl', h.2]

theorem ReadString_length (reader line rest : Str) (h : ReadString reader = (line, rest, false)) :
    rest.length < reader.length := by
  obtain ⟨body, _, _, hr⟩ := ReadString_ok reader line rest h
  rw [hr]; simp; omega

/-! ## The fuel of the loops is sufficient -/

/-- Two amounts of fuel above the length of the reader give the same result. -/
theorem parseParagraphLoop_fuel (f1 : Nat) :
    ∀ (f2 : Nat) (reader : Str) (ret : Paragraph) (key : Str),
      reader.length < f1 → reader.length < f2 →
      parseParagraphLoop f1 reader ret key = parseParagraphLoop f2 reader ret key := by
  induction f1 with
  | zero => intro f2 reader ret key h1; omega
  | succ n ih =>
    intro f2 reader ret key h1 h2
    obtain ⟨m, rfl⟩ : ∃ m, f2 = m + 1 := ⟨f2 - 1, by omega⟩
    unfold parseParagraphLoop
    rcases hrs : ReadString reader with ⟨line, reader', eof⟩
    cases eof with
    | true => rfl
    | false =>
      have hlen := ReadString_length reader line reader' hrs
      have e : ∀ r k, parseParagraphLoop n reader' r k = parseParagraphLoop m reader' r k :=
        fun r k => ih m reader' r k (by omega) (by omega)
      simp only [e]

theorem scanLines_eof (reader : Str) (ret : Paragraph) (key : Str) (h : '\n' ∉ reader) :
    scanLines reader ret key =
      if ret.Order.length = 0 then (none, some GoError.EOF, [])
      else (some ret, some GoError.EOF, []) := by
  unfold scanLines parseParagraphLoop
  rw [ReadString_eof reader h]

/-- One iteration of the loop of `parseParagraph` on a complete line. -/
theorem scanLines_line (body rest : Str) (ret : Paragraph) (key : Str) (h : '\n' ∉ body) :
    scanLines (body ++ '\n' :: rest) ret key =
      if body ++ ['\n'] = ['\n'] then (some ret, none, rest)
      else if (TrimLeft (body ++ ['\n']) noop).head? = some '#' then scanLines rest ret key
      else if (body ++ ['\n']).head? = some ' ' then
        scanLines rest
          { ret with Values := ret.Values.set key (ret.Values.get key ++ '\n' :: Trim (body ++ ['\n']).tail noop) }
          key
      else
        match SplitN2 (body ++ ['\n']) ':' with
        | [a, b] =>
          scanLines rest
            { Values := ret.Values.set (Trim a noop) (Trim b noop),
              Order := ret.Order ++ [Trim a noop] }
            (Trim a noop)
        | _ => (none, some (GoError.Errorf notKeyValFormat (body ++ ['\n'])), rest) := by
  have e : ∀ r k, parseParagraphLoop (body ++ '\n' :: rest).length rest r k = scanLines rest r k :=
    fun r k => parseParagraphLoop_fuel _ _ rest r k (by simp; omega) (by omega)
  unfold scanLines
  conv => lhs; unfold parseParagraphLoop
  rw [ReadString_line body rest h]
  simp only [e]
  rfl

/-- The reader never grows, and a paragraph closed by a blank line has
consumed at least that line. -/
theorem parseParagraphLoop_reader (fuel : Nat) :
    ∀ (reader : Str) (ret : Paragraph) (key : Str) (para : Option Paragraph)
      (err : Option GoError) (reader' : Str),
      reader.length < fuel →
      parseParagraphLoop fuel reader ret key = (para, err, reader') →
      reader'.length ≤ reader.length ∧ (err = none → reader'.length < reader.length) := by
  induction fuel with
  | zero => intro reader ret key para err reader' h; omega
  | succ n ih =>
    intro reader ret key para err reader' hf h
    unfold parseParagraphLoop at h
    rcases hrs : ReadString reader with ⟨line, r1, eof⟩
    rw [hrs] at h
    cases eof with
    | true =>
      simp only at h
      have hr1 : r1 = [] := by
        unfold ReadString at hrs
        split at hrs <;> simp_all
      split at h <;> simp only [Prod.mk.injEq] at h <;>
        (obtain ⟨_, he, hr⟩ := h; subst hr he hr1; simp)
    | false =>
      have hlen := ReadString_length reader line r1 hrs
      simp only at h
      split at h
      · simp only [Prod.mk.injEq] at h
        obtain ⟨_, _, hr⟩ := h
        subst hr
        exact ⟨by omega, fun _ => hlen⟩
      · split at h
        · have := ih r1 _ _ _ _ _ (by omega) h
          exact ⟨by omega, fun e => by have := this.2 e; omega⟩
        · split at h
          · have := ih r1 _ _ _ _ _ (by omega) h
            exact ⟨by omega, fun e => by have := this.2 e; omega⟩
          · split at h
            · have := ih r1 _ _ _ _ _ (by omega) h
              exact ⟨by omega, fun e => by have := this.2 e; omega⟩
            · simp only [Prod.mk.injEq] at h
              obtain ⟨_, he, hr⟩ := h
              subst hr he
              exact ⟨by omega, fun e => by simp at e⟩

theorem parseParagraph_reader (reader : Str) (para : Option Paragraph) (reader' : Str)
    (h : parseParagraph reader = (para, none, reader')) : reader'.length < reader.length :=
  (parseParagraphLoop_reader _ reader _ _ para none reader' (by omega) h).2 rfl

theorem parseParagraphsLoop_fuel (f1 : Nat) :
    ∀ (f2 : Nat) (reader : Str) (ret : List Paragraph),
      reader.length < f1 → reader.length < f2 →
      parseParagraphsLoop f1 reader ret = parseParagraphsLoop f2 reader ret := by
  induction f1 with
  | zero => intro f2 reader ret h1; omega
  | succ n ih =>
    intro f2 reader ret h1 h2
    obtain ⟨m, rfl⟩ : ∃ m, f2 = m + 1 := ⟨f2 - 1, by omega⟩
    unfold parseParagraphsLoop
    rcases hpp : parseParagraph reader with ⟨para, err, reader'⟩
    cases err with
    | some e => cases e <;> rfl
    | none =>
      have hlen := parseParagraph_reader reader para reader' hpp
      cases para with
      | none => rfl
      | some p => exact ih m reader' _ (by omega) (by omega)

/-- One iteration of the loop of `parseParagraphs`. -/
theorem scanParagraphs_step (reader : Str) (ret : List Paragraph) :
    scanParagraphs reader ret =
      match parseParagraph reader with
      | (para, some GoError.EOF, _) =>
        match para with
        | some p => Outcome.ret (ret ++ [p], none)
        | none => Outcome.panic
      | (_, some err, _) => Outcome.ret ([], some err)
      | (para, none, reader') =>
        match para with
        | some p => scanParagraphs reader' (ret ++ [p])
        | none => Outcome.panic := by
  unfold scanParagraphs
  conv => lhs; unfold parseParagraphsLoop
  rcases hpp : parseParagraph reader with ⟨para, err, reader'⟩
  cases err with
  | some e => cases e <;> rfl
  | none =>
    have hlen := parseParagraph_reader reader para reader' hpp
    cases para with
    | none => rfl
    | some p => exact parseParagraphsLoop_fuel _ _ reader' _ (by omega) (by omega)

theorem parseParagraphs_eq (reader : Str) : parseParagraphs reader = scanParagraphs reader [] := rfl

theorem parseParagraph_eq (reader : Str) :
    parseParagraph reader = scanLines reader { Values := [], Order := [] } [] := rfl

/-! ## Trimming and splitting -/

theorem TrimLeft_length_le (s cs : Str) : (TrimLeft s cs).length ≤ s.length :=
  (List.dropWhile_sublist _).length_le

theorem TrimRight_length_le (s cs : Str) : (TrimRight s cs).length ≤ s.length := by
  unfold TrimRight
  rw [List.length_reverse]
  exact le_trans (List.dropWhile_sublist _).length_le (by simp)

theorem TrimLeft_cons_mem (c : Char) (s cs : Str) (h : c ∈ cs) :
    TrimLeft (c :: s) cs = TrimLeft s cs := by
  unfold TrimLeft
  rw [List.dropWhile_cons_of_pos (by simpa using h)]

theorem TrimLeft_cons_not_mem (c : Char) (s cs : Str) (h : c ∉ cs) :
    TrimLeft (c :: s) cs = c :: s := by
  unfold TrimLeft
  rw [List.dropWhile_cons_of_neg (by simpa using h)]

/-- A text that trimming leaves alone does not start with a cutset character. -/
theorem Trim_eq_self_head (s cs : Str) (h : Trim s cs = s) (c : Char)
    (hc : s.head? = some c) : c ∉ cs := by
  intro hmem
  cases s with
  | nil => simp at hc
  | cons x xs =>
    simp only [List.head?_cons, Option.some.injEq] at hc
    subst hc
    have h1 : (Trim (x :: xs) cs).length ≤ xs.length := by
      unfold Trim
      rw [TrimLeft_cons_mem x xs cs hmem]
      exact le_trans (TrimRight_length_le _ _) (TrimLeft_length_le _ _)
    rw [h] at h1
    simp at h1

/-- A cutset character at the end does not change the trimmed text. -/
theorem Trim_append_mem (s cs : Str) (c : Char) (h : c ∈ cs) :
    Trim (s ++ [c]) cs = Trim s cs := by
  unfold Trim TrimLeft TrimRight
  rw [List.dropWhile_append]
  split
  · rename_i he
    have he' : List.dropWhile (fun c => decide (c ∈ cs)) s = [] := by
      simpa [List.isEmpty_iff] using he
    rw [he', List.dropWhile_cons_of_pos (by simpa using h)]
    simp
  · rw [List.reverse_append, List.reverse_singleton, List.singleton_append,
      List.dropWhile_cons_of_pos (by simpa using h)]

/-- A cutset character at the start does not change the trimmed text. -/
theorem Trim_cons_mem (s cs : Str) (c : Char) (h : c ∈ cs) :
    Trim (c :: s) cs = Trim s cs := by
  unfold Trim
  rw [TrimLeft_cons_mem c s cs h]

theorem SplitN2_colon (a b : Str) (h : ':' ∉ a) : SplitN2 (a ++ ':' :: b) ':' = [a, b] := by
  unfold SplitN2
  rw [span_append_stop _ a ':' b (fun x hx => by
    have : x ≠ ':' := fun e => h (e ▸ hx)
    simpa using this) (by simp)]

theorem SplitN2_none (s : Str) (h : ':' ∉ s) : SplitN2 s ':' = [s] := by
  unfold SplitN2
  rw [span_all _ s (fun x hx => by
    have : x ≠ ':' := fun e => h (e ▸ hx)
    simpa using this)]

theorem SplitN2_mem (s : Str) (h : ':' ∈ s) : ∃ a b, SplitN2 s ':' = [a, b] ∧ ':' ∉ a ∧ s = a ++ ':' :: b := by
  obtain ⟨a, b, hs, ha⟩ := List.eq_append_cons_of_mem h
  exact ⟨a, b, by rw [hs]; exact SplitN2_colon a b ha, ha, hs⟩

/-! ## The scanner on a field line -/

/-- A field line `k: v` with a well-formed key sets `Values[k]` to the trimmed
`v`, appends `k` to `Order` and makes `k` the current key. -/
theorem scanLines_fieldLine (k v rest : Str) (ret : Paragraph) (key : Str)
    (hk : wellFormedKey k) (hv : '\n' ∉ v) :
    scanLines (fieldLine (k, v) ++ rest) ret key =
      scanLines rest
        { Values := ret.Values.set k (Trim v noop), Order := ret.Order ++ [k] } k := by
  obtain ⟨htrim, hcolon, hnl, hhash⟩ := hk
  have hbody : '\n' ∉ k ++ ':' :: ' ' :: v := by
    simp only [List.mem_append, List.mem_cons, not_or]
    exact ⟨hnl, by decide, by decide, hv⟩
  have hline : fieldLine (k, v) ++ rest = (k ++ ':' :: ' ' :: v) ++ '\n' :: rest := by
    simp [fieldLine]
  have hhead : ∀ c, (k ++ ':' :: ' ' :: v ++ ['\n']).head? = some c → c ∉ noop ∧ c ≠ '#' := by
    intro c hc
    cases k with
    | nil =>
      have hc' : ':' = c := by simpa using hc
      subst hc'; decide
    | cons x xs =>
      have hc' : x = c := by simpa using hc
      subst hc'
      exact ⟨Trim_eq_self_head _ _ htrim x rfl, fun e => hhash (by simp [e])⟩
  rw [hline, scanLines_line _ _ _ _ hbody]
  have hne : (k ++ ':' :: ' ' :: v) ++ ['\n'] ≠ ['\n'] := by
    cases k <;> simp
  have hsplit : SplitN2 ((k ++ ':' :: ' ' :: v) ++ ['\n']) ':' = [k, ' ' :: v ++ ['\n']] := by
    have := SplitN2_colon k (' ' :: v ++ ['\n']) hcolon
    simpa using this
  obtain ⟨c, hc⟩ : ∃ c, (k ++ ':' :: ' ' :: v ++ ['\n']).head? = some c := by
    cases k <;> simp
  have hc1 := (hhead c hc).1
  have hc2 := (hhead c hc).2
  have hleft : TrimLeft ((k ++ ':' :: ' ' :: v) ++ ['\n']) noop = k ++ ':' :: ' ' :: v ++ ['\n'] := by
    cases hk' : k ++ ':' :: ' ' :: v ++ ['\n'] with
    | nil => simp [hk'] at hc
    | cons y ys =>
      rw [hk'] at hc
      simp only [List.head?_cons, Option.some.injEq] at hc
      subst hc
      exact TrimLeft_cons_not_mem _ _ _ hc1
  have hspace : c ≠ ' ' := fun e => hc1 (by rw [e]; decide)
  rw [if_neg hne, hleft, hc, if_neg (by simpa using hc2),
    if_neg (by simpa using hspace), hsplit]
  simp only
  rw [htrim, Trim_append_mem _ _ '\n' (by decide), Trim_cons_mem _ _ ' ' (by decide)]

/-- A run of field lines is scanned into the state reached by setting the
fields one after the other. -/
theorem scanLines_fieldLines (fields : List (Str × Str)) :
    ∀ (rest : Str) (ret : Paragraph) (key : Str),
      (∀ kv ∈ fields, wellFormedKey kv.1 ∧ '\n' ∉ kv.2) →
      scanLines (fields.flatMap fieldLine ++ rest) ret key =
        scanLines rest
          { Values := fields.foldl (fun m kv => m.set kv.1 (Trim kv.2 noop)) ret.Values,
            Order := ret.Order ++ fields.map Prod.fst }
          (fields.foldl (fun _ kv => kv.1) key) := by
  induction fields with
  | nil => intro rest ret key _; simp
  | cons kv fields ih =>
    intro rest ret key h
    obtain ⟨k, v⟩ := kv
    have hkv := h (k, v) (by simp)
    rw [List.flatMap_cons, List.append_assoc,
      scanLines_fieldLine k v _ ret key hkv.1 hkv.2,
      ih rest _ _ (fun x hx => h x (by simp [hx]))]
    simp

/-- The paragraph that a non-empty run of field lines ending the text is
scanned into. -/
theorem parseParagraphs_fieldLines (fields : List (Str × Str)) (hne : fields ≠ [])
    (hwf : ∀ kv ∈ fields, wellFormedKey kv.1 ∧ '\n' ∉ kv.2) :
    parseParagraphs (fields.flatMap fieldLine) =
      Outcome.ret ([{ Values := fields.foldl (fun m kv => m.set kv.1 (Trim kv.2 noop)) [],
                      Order := fields.map Prod.fst }], none) := by
  have h := scanLines_fieldLines fields [] { Values := [], Order := [] } [] hwf
  rw [List.append_nil, scanLines_eof [] _ _ (by simp)] at h
  have hlen : ¬ (([] : List Str) ++ fields.map Prod.fst).length = 0 := by
    cases fields with
    | nil => exact absurd rfl hne
    | cons a l => simp
  simp only [if_neg hlen] at h
  rw [parseParagraphs_eq, scanParagraphs_step, parseParagraph_eq, h]
  simp

/-- C4. Lenient end of stream: a non-empty run of field lines `k_i: v_i`, each
newline-terminated, with well-formed keys and newline-free values and with no
trailing blank line, is parsed without error into exactly one paragraph, whose
`Order` is the list of the keys. -/
theorem parseParagraphs_lenient_eof (fields : List (Str × Str)) (hne : fields ≠ [])
    (hwf : ∀ kv ∈ fields, wellFormedKey kv.1 ∧ '\n' ∉ kv.2) :
    ∃ p, parseParagraphs (fields.flatMap fieldLine) = Outcome.ret ([p], none) ∧
      p.Order = fields.map Prod.fst :=
  ⟨_, parseParagraphs_fieldLines fields hne hwf, rfl⟩

theorem parseParagraphs_lenient_eof_witness :
    ∃ p, parseParagraphs "Key: a\nSection: net\n".toList = Outcome.ret ([p], none) ∧
      p.Order = ["Key".toList, "Section".toList] :=
  parseParagraphs_lenient_eof [("Key".toList, "a".toList), ("Section".toList, "net".toList)]
    (by decide) (by decide)

/-! ## Syntax errors -/

/-- The scanner stops with the syntax error at a line of no class. -/
theorem scanLines_bad (bad post : Str) (ret : Paragraph) (key : Str)
    (hnl : '\n' ∉ bad) (hblank : bad ++ ['\n'] ≠ ['\n'])
    (hcomment : ¬ isComment (bad ++ ['\n'])) (hspace : (bad ++ ['\n']).head? ≠ some ' ')
    (hcolon : ':' ∉ bad) :
    scanLines (bad ++ '\n' :: post) ret key =
      (none, some (GoError.Errorf notKeyValFormat (bad ++ ['\n'])), post) := by
  rw [scanLines_line _ _ _ _ hnl, if_neg hblank,
    if_neg (show ¬ (TrimLeft (bad ++ ['\n']) noop).head? = some '#' from hcomment), if_neg hspace,
    SplitN2_none _ (by simpa using hcolon)]

/-- Scanning one paragraph in a text whose lines are all of some class up to a
line of no class: either the error is reached, or a blank line closes the
paragraph and the rest of the text has the same shape with fewer lines. -/
theorem scanLines_before_bad (bad post : Str)
    (hnl : '\n' ∉ bad) (hblank : bad ++ ['\n'] ≠ ['\n'])
    (hcomment : ¬ isComment (bad ++ ['\n'])) (hspace : (bad ++ ['\n']).head? ≠ some ' ')
    (hcolon : ':' ∉ bad) (pre : List Str) :
    ∀ (ret : Paragraph) (key : Str),
      (∀ b ∈ pre, '\n' ∉ b ∧ acceptedLine (b ++ ['\n'])) →
      scanLines (pre.flatMap (fun b => b ++ ['\n']) ++ (bad ++ '\n' :: post)) ret key =
          (none, some (GoError.Errorf notKeyValFormat (bad ++ ['\n'])), post) ∨
        ∃ (p : Paragraph) (pre' : List Str), pre'.length < pre.length ∧
          (∀ b ∈ pre', '\n' ∉ b ∧ acceptedLine (b ++ ['\n'])) ∧
          scanLines (pre.flatMap (fun b => b ++ ['\n']) ++ (bad ++ '\n' :: post)) ret key =
            (some p, none, pre'.flatMap (fun b => b ++ ['\n']) ++ (bad ++ '\n' :: post)) := by
  induction pre with
  | nil =>
    intro ret key _
    left
    simpa using scanLines_bad bad post ret key hnl hblank hcomment hspace hcolon
  | cons b pre ih =>
    intro ret key h
    have hb := h b (by simp)
    have hpre : ∀ x ∈ pre, '\n' ∉ x ∧ acceptedLine (x ++ ['\n']) :=
      fun x hx => h x (by simp [hx])
    have hshape : (b :: pre).flatMap (fun b => b ++ ['\n']) ++ (bad ++ '\n' :: post) =
        b ++ '\n' :: (pre.flatMap (fun b => b ++ ['\n']) ++ (bad ++ '\n' :: post)) := by
      simp
    have lift : ∀ r k,
        (scanLines (pre.flatMap (fun b => b ++ ['\n']) ++ (bad ++ '\n' :: post)) r k =
            (none, some (GoError.Errorf notKeyValFormat (bad ++ ['\n'])), post) ∨
          ∃ (p : Paragraph) (pre' : List Str), pre'.length < (b :: pre).length ∧
            (∀ b ∈ pre', '\n' ∉ b ∧ acceptedLine (b ++ ['\n'])) ∧
            scanLines (pre.flatMap (fun b => b ++ ['\n']) ++ (bad ++ '\n' :: post)) r k =
              (some p, none, pre'.flatMap (fun b => b ++ ['\n']) ++ (bad ++ '\n' :: post))) := by
      intro r k
      rcases ih r k hpre with h1 | ⟨p, pre', hl, hp, he⟩
      · exact Or.inl h1
      · exact Or.inr ⟨p, pre', by simp; omega, hp, he⟩
    rw [hshape, scanLines_line _ _ _ _ hb.1]
    by_cases c1 : b ++ ['\n'] = ['\n']
    · rw [if_pos c1]
      exact Or.inr ⟨ret, pre, by simp, hpre, rfl⟩
    · rw [if_neg c1]
      by_cases c2 : (TrimLeft (b ++ ['\n']) noop).head? = some '#'
      · rw [if_pos c2]; exact lift _ _
      · rw [if_neg c2]
        by_cases c3 : (b ++ ['\n']).head? = some ' '
        · rw [if_pos c3]; exact lift _ _
        · rw [if_neg c3]
          have hc : ':' ∈ b ++ ['\n'] := by
            rcases hb.2 with h1 | h2 | h3 | h4
            · exact absurd h1 c1
            · exact absurd h2 c2
            · exact absurd h3 c3
            · exact h4
          obtain ⟨x, y, hxy, _, _⟩ := SplitN2_mem _ hc
          rw [hxy]
          exact lift _ _

/-- The loop of `parseParagraphs` ends with the syntax error and no paragraph,
whatever it has collected before. -/
theorem scanParagraphs_before_bad (bad post : Str)
    (hnl : '\n' ∉ bad) (hblank : bad ++ ['\n'] ≠ ['\n'])
    (hcomment : ¬ isComment (bad ++ ['\n'])) (hspace : (bad ++ ['\n']).head? ≠ some ' ')
    (hcolon : ':' ∉ bad) (n : Nat) :
    ∀ (pre : List Str) (ret : List Paragraph), pre.length ≤ n →
      (∀ b ∈ pre, '\n' ∉ b ∧ acceptedLine (b ++ ['\n'])) →
      scanParagraphs (pre.flatMap (fun b => b ++ ['\n']) ++ (bad ++ '\n' :: post)) ret =
        Outcome.ret ([], some (GoError.Errorf notKeyValFormat (bad ++ ['\n']))) := by
  induction n with
  | zero =>
    intro pre ret hlen h
    rcases scanLines_before_bad bad post hnl hblank hcomment hspace hcolon pre
      { Values := [], Order := [] } [] h with h1 | ⟨p, pre', hl, _, _⟩
    · rw [scanParagraphs_step, parseParagraph_eq, h1]
    · omega
  | succ n ih =>
    intro pre ret hlen h
    rcases scanLines_before_bad bad post hnl hblank hcomment hspace hcolon pre
      { Values := [], Order := [] } [] h with h1 | ⟨p, pre', hl, hp, he⟩
    · rw [scanParagraphs_step, parseParagraph_eq, h1]
    · rw [scanParagraphs_step, parseParagraph_eq, he]
      exact ih pre' _ (by omega) hp

/-- C6. Syntax errors are fatal and all-or-nothing: when every line before a
newline-terminated line `bad` is blank, a comment, starts with a space or
contains a colon, and `bad` is none of these, `parseParagraphs` returns the
error built from the format `Line %q is not 'key: val'` and the raw line
`bad`, with an empty paragraph list, whatever was completed before. -/
theorem parseParagraphs_syntax_error (pre : List Str) (bad post : Str)
    (hpre : ∀ b ∈ pre, '\n' ∉ b ∧ acceptedLine (b ++ ['\n']))
    (hnl : '\n' ∉ bad) (hblank : bad ++ ['\n'] ≠ ['\n'])
    (hcomment : ¬ isComment (bad ++ ['\n'])) (hspace : (bad ++ ['\n']).head? ≠ some ' ')
    (hcolon : ':' ∉ bad) :
    parseParagraphs (pre.flatMap (fun b => b ++ ['\n']) ++ (bad ++ '\n' :: post)) =
      Outcome.ret ([], some (GoError.Errorf notKeyValFormat (bad ++ ['\n']))) :=
  scanParagraphs_before_bad bad post hnl hblank hcomment hspace hcolon pre.length pre []
    (le_refl _) hpre

theorem parseParagraphs_syntax_error_witness :
    parseParagraphs "A: 1\n\nB: 2\n c\nBadLine\nD: 4\n".toList =
      Outcome.ret ([], some (GoError.Errorf notKeyValFormat "BadLine\n".toList)) :=
  parseParagraphs_syntax_error ["A: 1".toList, [], "B: 2".toList, " c".toList]
    "BadLine".toList "D: 4\n".toList (by decide) (by decide) (by decide) (by decide)
    (by decide) (by decide)

/-! ## The signature envelope -/

/-- C7. Clear-signed input whose requested verification fails: when the input
starts with the 15-byte armor prefix, the armored block decodes, a keyring is
given and the detached-signature check returns an error, `ParseParagraphs`
returns that error with an empty paragraph list, whatever the cleartext is;
the outcome does not depend on what the scanner would do with the cleartext. -/
theorem ParseParagraphs_verification_error {KeyRing Entity : Type}
    (Decode : Str → Option Block)
    (CheckDetachedSignature : KeyRing → Str → Str → Option Entity × Option GoError)
    (reader : Str) (kr : KeyRing) (block : Block) (signer : Option Entity) (err : GoError)
    (harmor : reader.take 15 = armorMagic)
    (hdecode : Decode reader = some block)
    (hcheck : CheckDetachedSignature kr block.Bytes block.ArmoredSignatureBody =
      (signer, some err)) :
    ParseParagraphs Decode CheckDetachedSignature reader (some kr) =
      Outcome.ret ([], signer, some err) := by
  unfold ParseParagraphs
  simp only [harmor, if_true, hdecode, hcheck]

theorem ParseParagraphs_verification_error_witness :
    parseParagraphs [] = Outcome.panic ∧
      @ParseParagraphs Unit Unit
          (fun _ => some ⟨[], "sig".toList⟩)
          (fun _ _ _ => (none, some (GoError.External "unknown issuer".toList)))
          "-----BEGIN PGP SIGNED MESSAGE-----\n".toList (some ()) =
        Outcome.ret ([], none, some (GoError.External "unknown issuer".toList)) :=
  ⟨by decide, ParseParagraphs_verification_error _ _ _ () ⟨[], "sig".toList⟩ none _
    (by decide) rfl rfl⟩

/-- C8 fails on the code: when the input starts with the armor prefix and the
decoder returns no block, `ParseParagraphs` reads a field of the nil block and
panics, with or without a keyring; it returns no error. -/
theorem ParseParagraphs_undecodable_panics {KeyRing Entity : Type}
    (Decode : Str → Option Block)
    (CheckDetachedSignature : KeyRing → Str → Str → Option Entity × Option GoError)
    (reader : Str) (keyring : Option KeyRing)
    (harmor : reader.take 15 = armorMagic)
    (hdecode : Decode reader = none) :
    ParseParagraphs Decode CheckDetachedSignature reader keyring = Outcome.panic := by
  unfold ParseParagraphs
  simp only [harmor, if_true, hdecode]

theorem ParseParagraphs_undecodable_panics_witness :
    @ParseParagraphs Unit Unit (fun _ => none)
        (fun _ _ _ => (none, none)) "-----BEGIN PGP garbage".toList none = Outcome.panic ∧
      @ParseParagraphs Unit Unit (fun _ => none)
        (fun _ _ _ => (none, none)) "-----BEGIN PGP garbage".toList (some ()) = Outcome.panic :=
  ⟨ParseParagraphs_undecodable_panics _ _ _ none (by decide) rfl,
    ParseParagraphs_undecodable_panics _ _ _ (some ()) (by decide) rfl⟩

/-! ## The escaper -/

/-- No match of `old` starts inside a text free of the first character of
`old`. -/
theorem replaceScan_skip_free (o : Char) (os new l s : Str) (h : o ∉ l) :
    replaceScan (o :: os) new 0 (l ++ s) = l ++ replaceScan (o :: os) new 0 s := by
  induction l with
  | nil => rfl
  | cons c cs ih =>
    simp only [List.mem_cons, not_or] at h
    rw [List.cons_append, replaceScan]
    have hp : (o :: os).isPrefixOf (c :: (cs ++ s)) = false := by
      simp only [List.isPrefixOf, Bool.and_eq_false_imp, beq_iff_eq]
      intro e
      exact absurd e h.1
    simp [hp, ih h.2]

theorem replaceScan_no_match (o : Char) (os new l : Str) (h : o ∉ l) :
    replaceScan (o :: os) new 0 l = l := by
  have := replaceScan_skip_free o os new l [] h
  simpa [replaceScan] using this

/-- A text without a newline is escaped to itself. -/
theorem dotEncodeValue_of_no_newline (v : Str) (h : '\n' ∉ v) : dotEncodeValue v = v := by
  unfold dotEncodeValue Replace
  simp only
  rw [replaceScan_no_match _ _ _ _ h, replaceScan_no_match _ _ _ _ h]

/-- The escaper on two lines separated by a blank line. -/
theorem dotEncodeValue_blank_line (a b : Str) (ha : '\n' ∉ a) (hb : '\n' ∉ b) :
    dotEncodeValue (a ++ '\n' :: '\n' :: b) = a ++ '\n' :: ' ' :: '.' :: '\n' :: ' ' :: b := by
  unfold dotEncodeValue Replace
  simp only
  have h1 : replaceScan ['\n'] ['\n', ' '] 0 (a ++ '\n' :: '\n' :: b) =
      a ++ '\n' :: ' ' :: '\n' :: ' ' :: b := by
    rw [replaceScan_skip_free _ _ _ _ _ ha]
    simp [replaceScan, List.isPrefixOf, replaceScan_no_match _ _ _ _ hb]
  rw [h1, replaceScan_skip_free _ _ _ _ _ ha]
  simp [replaceScan, List.isPrefixOf, replaceScan_no_match _ _ _ _ hb]

/-! ## The association list, reading -/

theorem StrMap.get_set_self (m : StrMap) (k v : Str) : (m.set k v).get k = v := by
  induction m with
  | nil => simp [StrMap.set, StrMap.get]
  | cons kv rest ih =>
    obtain ⟨k0, v0⟩ := kv
    unfold StrMap.set
    by_cases h : k0 = k
    · simp [h, StrMap.get]
    · simp [h, StrMap.get, ih]

theorem StrMap.get_set_ne (m : StrMap) (k v k' : Str) (h : k' ≠ k) :
    (m.set k v).get k' = m.get k' := by
  induction m with
  | nil => simp [StrMap.set, StrMap.get, Ne.symm h]
  | cons kv rest ih =>
    obtain ⟨k0, v0⟩ := kv
    unfold StrMap.set
    by_cases h0 : k0 = k
    · subst h0
      simp [StrMap.get, Ne.symm h]
    · simp only [h0, if_false]
      by_cases h1 : k0 = k'
      · simp [StrMap.get, h1]
      · simp [StrMap.get, h1, ih]

theorem StrMap.set_set (m : StrMap) (k v v' : Str) : (m.set k v).set k v' = m.set k v' := by
  induction m with
  | nil => simp [StrMap.set]
  | cons kv rest ih =>
    obtain ⟨k0, v0⟩ := kv
    by_cases h : k0 = k
    · simp [StrMap.set, h]
    · simp [StrMap.set, h, ih]

/-! ## The scanner on a continuation line -/

/-- A continuation line that is not a comment appends a newline and its
trimmed remainder to the value of the current key. -/
theorem scanLines_continuation (l rest : Str) (ret : Paragraph) (key : Str)
    (hl : '\n' ∉ l) (hcomment : ¬ isComment (' ' :: l ++ ['\n'])) :
    scanLines (' ' :: l ++ '\n' :: rest) ret key =
      scanLines rest
        { ret with Values := ret.Values.set key (ret.Values.get key ++ '\n' :: Trim l noop) }
        key := by
  have hbody : '\n' ∉ ' ' :: l := by simpa using hl
  have hshape : ' ' :: l ++ '\n' :: rest = (' ' :: l) ++ '\n' :: rest := rfl
  rw [hshape, scanLines_line _ _ _ _ hbody, if_neg (by simp),
    if_neg (show ¬ (TrimLeft ((' ' :: l) ++ ['\n']) noop).head? = some '#' from hcomment),
    if_pos (by simp)]
  simp only [List.cons_append, List.tail_cons]
  rw [Trim_append_mem _ _ '\n' (by decide)]

/-- A continuation line whose remainder is trimmed is a comment only if the
remainder starts with `#`. -/
theorem not_isComment_continuation (l : Str) (htrim : Trim l noop = l)
    (hhash : l.head? ≠ some '#') : ¬ isComment (' ' :: l ++ ['\n']) := by
  unfold isComment
  rw [List.cons_append, TrimLeft_cons_mem _ _ _ (by decide)]
  cases l with
  | nil => decide
  | cons c cs =>
    have hc := Trim_eq_self_head _ _ htrim c rfl
    rw [List.cons_append, TrimLeft_cons_not_mem _ _ _ hc]
    simpa using hhash

/-! ## Lines of a text -/

theorem joinLines_lines (v : Str) : joinLines (lines v).1 (lines v).2 = v := by
  induction v with
  | nil => rfl
  | cons c cs ih =>
    unfold lines
    by_cases h : c = '\n'
    · simp only [h, if_true]
      unfold joinLines at ih ⊢
      simp only [List.flatMap_cons, List.nil_append, List.cons_append]
      rw [ih]
    · simp only [h, if_false]
      unfold joinLines at ih ⊢
      rw [List.cons_append, ih]

theorem lines_no_newline (v : Str) :
    '\n' ∉ (lines v).1 ∧ ∀ l ∈ (lines v).2, '\n' ∉ l := by
  induction v with
  | nil => simp [lines]
  | cons c cs ih =>
    unfold lines
    by_cases h : c = '\n'
    · simp only [h, if_true]
      refine ⟨by simp, ?_⟩
      intro l hl
      simp only [List.mem_cons] at hl
      rcases hl with hl | hl
      · rw [hl]; exact ih.1
      · exact ih.2 l hl
    · simp only [h, if_false]
      refine ⟨?_, ih.2⟩
      simp only [List.mem_cons, not_or]
      exact ⟨fun e => h e.symm, ih.1⟩

/-! ## The escaper, line by line -/

/-- The first replacement of the escaper puts a space after every newline. -/
theorem replace_newline_joinLines (ls : List Str) (hls : ∀ l ∈ ls, '\n' ∉ l) :
    replaceScan ['\n'] ['\n', ' '] 0 (ls.flatMap (fun l => '\n' :: l)) =
      ls.flatMap (fun l => '\n' :: ' ' :: l) := by
  induction ls with
  | nil => rfl
  | cons l ls ih =>
    have hl := hls l (by simp)
    have ih' := ih (fun x hx => hls x (by simp [hx]))
    simp only [List.flatMap_cons, List.cons_append]
    rw [replaceScan]
    simp only [List.isPrefixOf, beq_self_eq_true, Bool.and_self, if_true, List.length_singleton,
      Nat.sub_self]
    rw [replaceScan_skip_free _ _ _ _ _ hl, ih']
    simp

theorem replaceScan_dot_match (s : Str) :
    replaceScan ['\n', ' ', '\n'] ['\n', ' ', '.', '\n'] 0 ('\n' :: ' ' :: '\n' :: s) =
      '\n' :: ' ' :: '.' :: '\n' :: replaceScan ['\n', ' ', '\n'] ['\n', ' ', '.', '\n'] 0 s := by
  simp [replaceScan, List.isPrefixOf]

theorem replaceScan_dot_no_match (l : Str) (hl : '\n' ∉ l) (h : l ≠ []) (s : Str) :
    replaceScan ['\n', ' ', '\n'] ['\n', ' ', '.', '\n'] 0 ('\n' :: ' ' :: (l ++ s)) =
      '\n' :: ' ' :: (l ++ replaceScan ['\n', ' ', '\n'] ['\n', ' ', '.', '\n'] 0 s) := by
  cases l with
  | nil => exact absurd rfl h
  | cons c cs =>
    have hc : c ≠ '\n' := fun e => hl (by simp [e])
    have hsl : '\n' ∉ ' ' :: c :: cs := by simpa using hl
    have := replaceScan_skip_free '\n' [' ', '\n'] ['\n', ' ', '.', '\n'] (' ' :: c :: cs) s hsl
    rw [replaceScan]
    have hp : List.isPrefixOf ['\n', ' ', '\n'] ('\n' :: ' ' :: (c :: cs ++ s)) = false := by
      simp [List.isPrefixOf, Ne.symm hc]
    rw [hp]
    simp only [Bool.false_eq_true, if_false]
    simp only [List.cons_append] at this ⊢
    rw [this]

theorem replaceScan_dot_last (l : Str) (hl : '\n' ∉ l) :
    replaceScan ['\n', ' ', '\n'] ['\n', ' ', '.', '\n'] 0 ('\n' :: ' ' :: l) =
      '\n' :: ' ' :: l := by
  cases l with
  | nil => simp [replaceScan, List.isPrefixOf]
  | cons c cs =>
    have := replaceScan_dot_no_match (c :: cs) hl (by simp) []
    simpa [replaceScan] using this

/-- The second replacement of the escaper writes the lone dots of
`dotLines`. -/
theorem replace_dot_joinLines (n : Nat) :
    ∀ (ls : List Str), ls.length ≤ n → (∀ l ∈ ls, '\n' ∉ l) →
      replaceScan ['\n', ' ', '\n'] ['\n', ' ', '.', '\n'] 0
          (ls.flatMap (fun l => '\n' :: ' ' :: l)) =
        (dotLines ls).flatMap (fun l => '\n' :: ' ' :: l) := by
  induction n with
  | zero =>
    intro ls hlen _
    have : ls = [] := List.length_eq_zero.mp (by omega)
    subst this; rfl
  | succ n ih =>
    intro ls hlen hls
    match ls, hlen, hls with
    | [], _, _ => rfl
    | [l], _, hls =>
      simp only [dotLines, List.flatMap_cons, List.flatMap_nil, List.append_nil]
      exact replaceScan_dot_last l (hls l (by simp))
    | l :: l' :: rest, hlen, hls =>
      have hl := hls l (by simp)
      have hl' := hls l' (by simp)
      have hrest : ∀ x ∈ rest, '\n' ∉ x := fun x hx => hls x (by simp [hx])
      have hsl' : '\n' ∉ ' ' :: l' := by simpa using hl'
      simp only [List.length_cons] at hlen
      by_cases he : l = []
      · subst he
        simp only [dotLines, if_true, List.flatMap_cons, List.cons_append, List.nil_append]
        rw [replaceScan_dot_match]
        have := replaceScan_skip_free '\n' [' ', '\n'] ['\n', ' ', '.', '\n'] (' ' :: l')
          (rest.flatMap (fun l => '\n' :: ' ' :: l)) hsl'
        rw [List.cons_append] at this
        rw [this, ih rest (by omega) hrest]
        simp
      · simp only [dotLines, he, if_false, List.flatMap_cons, List.cons_append]
        have ih' := ih (l' :: rest) (by simp; omega) (fun x hx => hls x (by
          simp only [List.mem_cons] at hx ⊢; tauto))
        simp only [List.flatMap_cons, List.cons_append] at ih'
        rw [replaceScan_dot_no_match l hl he, ih']

/-- The escaper in terms of lines: a space goes before every line after the
first, and the empty lines picked by `dotLines` become lone dots. -/
theorem dotEncodeValue_joinLines (l0 : Str) (ls : List Str) (h0 : '\n' ∉ l0)
    (hls : ∀ l ∈ ls, '\n' ∉ l) :
    dotEncodeValue (joinLines l0 ls) = l0 ++ (dotLines ls).flatMap (fun l => '\n' :: ' ' :: l) := by
  unfold dotEncodeValue Replace joinLines
  simp only
  rw [replaceScan_skip_free _ _ _ _ _ h0, replace_newline_joinLines ls hls,
    replaceScan_skip_free _ _ _ _ _ h0, replace_dot_joinLines ls.length ls (le_refl _) hls]

/-! ## The scanner on an escaped field -/

theorem StrMap.foldl_append_lines (ls : List Str) :
    ∀ (m : StrMap) (k v : Str),
      ls.foldl (fun m l => m.set k (m.get k ++ '\n' :: l)) (m.set k v) =
        m.set k (v ++ ls.flatMap (fun l => '\n' :: l)) := by
  induction ls with
  | nil => intro m k v; simp
  | cons l ls ih =>
    intro m k v
    rw [List.foldl_cons, StrMap.get_set_self, StrMap.set_set, ih]
    simp

/-- A run of continuation lines appends its lines to the value of the current
key. -/
theorem scanLines_continuationLines (ls : List Str) :
    ∀ (rest : Str) (ret : Paragraph) (key : Str),
      (∀ l ∈ ls, cleanLine l ∧ l.head? ≠ some '#') →
      scanLines (continuationLines ls ++ rest) ret key =
        scanLines rest
          { ret with Values := ls.foldl (fun m l => m.set key (m.get key ++ '\n' :: l)) ret.Values }
          key := by
  induction ls with
  | nil => intro rest ret key _; rfl
  | cons l ls ih =>
    intro rest ret key h
    obtain ⟨⟨hnl, htrim⟩, hhash⟩ := h l (by simp)
    have hshape : continuationLines (l :: ls) ++ rest =
        ' ' :: l ++ '\n' :: (continuationLines ls ++ rest) := by
      simp [continuationLines]
    rw [hshape, scanLines_continuation l _ ret key hnl (not_isComment_continuation l htrim hhash),
      ih rest _ key (fun x hx => h x (by simp [hx])), htrim]
    rfl

theorem dotLines_forall (P : Str → Prop) (hdot : P ['.']) (n : Nat) :
    ∀ (ls : List Str), ls.length ≤ n → (∀ l ∈ ls, P l) → ∀ l ∈ dotLines ls, P l := by
  induction n with
  | zero =>
    intro ls hlen _
    have : ls = [] := List.length_eq_zero.mp (by omega)
    subst this; simp [dotLines]
  | succ n ih =>
    intro ls hlen h
    match ls, hlen, h with
    | [], _, _ => simp [dotLines]
    | [l], _, h => simpa [dotLines] using h
    | l :: l' :: rest, hlen, h =>
      simp only [List.length_cons] at hlen
      unfold dotLines
      by_cases he : l = []
      · simp only [he, if_true, List.mem_cons]
        rintro x (hx | hx | hx)
        · rw [hx]; exact hdot
        · rw [hx]; exact h l' (by simp)
        · exact ih rest (by omega) (fun y hy => h y (by simp [hy])) x hx
      · simp only [he, if_false, List.mem_cons]
        rintro x (hx | hx)
        · rw [hx]; exact h l (by simp)
        · exact ih (l' :: rest) (by simp; omega) (fun y hy => h y (by
            simp only [List.mem_cons] at hy ⊢; tauto)) x hx

theorem continuation_shift (ls : List Str) :
    ls.flatMap (fun l => '\n' :: ' ' :: l) ++ ['\n'] = '\n' :: continuationLines ls := by
  induction ls with
  | nil => rfl
  | cons l ls ih =>
    simp only [List.flatMap_cons, continuationLines, List.cons_append, List.append_assoc] at ih ⊢
    rw [ih]
    simp

/-- The text of an escaped field is its first line as a field line followed
by the other lines as continuation lines. -/
theorem fieldLine_dotEncodeValue (k v : Str) :
    fieldLine (k, dotEncodeValue v) =
      fieldLine (k, (lines v).1) ++ continuationLines (dotLines (lines v).2) := by
  have hv := joinLines_lines v
  have hn := lines_no_newline v
  conv => lhs; rw [← hv, dotEncodeValue_joinLines _ _ hn.1 hn.2]
  unfold fieldLine
  simp only [List.append_assoc, List.cons_append]
  rw [continuation_shift]
  simp

/-- An escaped field with a well-formed key and a clean value is scanned
into `Values[k] = readBack v`, with `k` appended to `Order`. -/
theorem scanLines_escapedField (k v rest : Str) (ret : Paragraph) (key : Str)
    (hk : wellFormedKey k) (hv : cleanValue v) :
    scanLines (fieldLine (k, dotEncodeValue v) ++ rest) ret key =
      scanLines rest
        { Values := ret.Values.set k (readBack v), Order := ret.Order ++ [k] } k := by
  obtain ⟨⟨h0nl, h0trim⟩, hls⟩ := hv
  have hdots : ∀ l ∈ dotLines (lines v).2, cleanLine l ∧ l.head? ≠ some '#' :=
    dotLines_forall (fun l => cleanLine l ∧ l.head? ≠ some '#') (by decide) _ _ (le_refl _) hls
  rw [fieldLine_dotEncodeValue, List.append_assoc, scanLines_fieldLine k _ _ ret key hk h0nl,
    scanLines_continuationLines _ rest _ k hdots, h0trim]
  simp only
  rw [StrMap.foldl_append_lines]
  rfl

/-- The paragraph read from one escaped field that ends the text. -/
theorem parseParagraphs_escapedField (k v : Str) (hk : wellFormedKey k) (hv : cleanValue v) :
    parseParagraphs (fieldLine (k, dotEncodeValue v)) =
      Outcome.ret ([{ Values := [(k, readBack v)], Order := [k] }], none) := by
  have h := scanLines_escapedField k v [] { Values := [], Order := [] } [] hk hv
  rw [List.append_nil, scanLines_eof [] _ _ (by simp)] at h
  rw [parseParagraphs_eq, scanParagraphs_step, parseParagraph_eq, h]
  simp [StrMap.set]

/-! ## Values without a blank line -/

theorem dotLines_eq_self (n : Nat) :
    ∀ (ls : List Str), ls.length ≤ n → (∀ l ∈ ls.dropLast, l ≠ []) → dotLines ls = ls := by
  induction n with
  | zero =>
    intro ls hlen _
    have : ls = [] := List.length_eq_zero.mp (by omega)
    subst this; rfl
  | succ n ih =>
    intro ls hlen h
    match ls, hlen, h with
    | [], _, _ => rfl
    | [l], _, _ => rfl
    | l :: l' :: rest, hlen, h =>
      simp only [List.length_cons] at hlen
      have hl : l ≠ [] := h l (by simp [List.dropLast])
      unfold dotLines
      rw [if_neg hl, ih (l' :: rest) (by simp; omega) (fun x hx => h x (by
        simp only [List.dropLast_cons₂, List.mem_cons]; exact Or.inr hx))]

/-- In a text without two newlines in a row, no line between the first and the
last is empty. -/
theorem no_blank_lines (ls : List Str) :
    ∀ (l0 : Str), ¬ ['\n', '\n'] <:+: joinLines l0 ls → ∀ l ∈ ls.dropLast, l ≠ [] := by
  induction ls with
  | nil => intro l0 _ l hl; simp at hl
  | cons l ls ih =>
    intro l0 h
    cases ls with
    | nil => intro x hx; simp at hx
    | cons l' rest =>
      have hstep : joinLines l0 (l :: l' :: rest) = joinLines (l0 ++ '\n' :: l) (l' :: rest) := by
        simp [joinLines]
      intro x hx
      simp only [List.dropLast_cons₂, List.mem_cons] at hx
      rcases hx with hx | hx
      · subst hx
        intro he
        apply h
        subst he
        refine ⟨l0, l' ++ rest.flatMap (fun l => '\n' :: l), ?_⟩
        simp [joinLines]
      · rw [hstep] at h
        exact ih _ h x hx

/-- A clean value without a blank line is read back unchanged. -/
theorem readBack_eq_self (v : Str) (h : ¬ ['\n', '\n'] <:+: v) : readBack v = v := by
  have hv := joinLines_lines v
  unfold readBack
  rw [dotLines_eq_self _ _ (le_refl _) (no_blank_lines _ _ (by rw [hv]; exact h)), hv]

theorem dotLines_ne_nil (ls : List Str) (h : ls ≠ []) : dotLines ls ≠ [] := by
  match ls, h with
  | [l], _ => simp [dotLines]
  | l :: l' :: rest, _ =>
    unfold dotLines
    split <;> simp

/-- The escaped form of a non-empty value is not empty. -/
theorem dotEncodeValue_ne_nil (v : Str) (h : v ≠ []) : dotEncodeValue v ≠ [] := by
  have hv := joinLines_lines v
  have hn := lines_no_newline v
  rw [← hv, dotEncodeValue_joinLines _ _ hn.1 hn.2]
  intro he
  rw [List.append_eq_nil] at he
  have hls : (lines v).2 ≠ [] := by
    intro hnil
    apply h
    rw [← hv, he.1, hnil]
    rfl
  have hd := dotLines_ne_nil _ hls
  cases hdl : dotLines (lines v).2 with
  | nil => exact hd hdl
  | cons x xs =>
    rw [hdl] at he
    simp at he

/-! ## Marshalling a record and parsing it back -/

theorem StrMap.get_foldl_not_mem (f : Str → Str) (kvs : List (Str × Str)) :
    ∀ (m : StrMap) (k : Str), k ∉ kvs.map Prod.fst →
      (kvs.foldl (fun m kv => m.set kv.1 (f kv.2)) m).get k = m.get k := by
  induction kvs with
  | nil => intro m k _; rfl
  | cons kv kvs ih =>
    intro m k h
    simp only [List.map_cons, List.mem_cons, not_or] at h
    rw [List.foldl_cons, ih _ k h.2, StrMap.get_set_ne _ _ _ _ h.1]

theorem StrMap.get_foldl_mem (f : Str → Str) (kvs : List (Str × Str)) :
    ∀ (m : StrMap) (k v : Str), (kvs.map Prod.fst).Nodup → (k, v) ∈ kvs →
      (kvs.foldl (fun m kv => m.set kv.1 (f kv.2)) m).get k = f v := by
  induction kvs with
  | nil => intro m k v _ h; simp at h
  | cons kv kvs ih =>
    intro m k v hnd h
    simp only [List.map_cons, List.nodup_cons] at hnd
    simp only [List.mem_cons] at h
    rw [List.foldl_cons]
    rcases h with h | h
    · subst h
      rw [StrMap.get_foldl_not_mem f kvs _ _ hnd.1, StrMap.get_set_self]
    · exact ih _ k v hnd.2 h

/-- A run of escaped fields is scanned into the state reached by setting the
fields one after the other to the values read back. -/
theorem scanLines_escapedFields (kvs : List (Str × Str)) :
    ∀ (rest : Str) (ret : Paragraph) (key : Str),
      (∀ kv ∈ kvs, wellFormedKey kv.1 ∧ cleanValue kv.2) →
      scanLines (kvs.flatMap (fun kv => fieldLine (kv.1, dotEncodeValue kv.2)) ++ rest) ret key =
        scanLines rest
          { Values := kvs.foldl (fun m kv => m.set kv.1 (readBack kv.2)) ret.Values,
            Order := ret.Order ++ kvs.map Prod.fst }
          (kvs.foldl (fun _ kv => kv.1) key) := by
  induction kvs with
  | nil => intro rest ret key _; simp
  | cons kv kvs ih =>
    intro rest ret key h
    obtain ⟨k, v⟩ := kv
    have hkv := h (k, v) (by simp)
    rw [List.flatMap_cons, List.append_assoc,
      scanLines_escapedField k v _ ret key hkv.1 hkv.2,
      ih rest _ _ (fun x hx => h x (by simp [hx]))]
    simp

/-- The paragraph read from a non-empty run of escaped fields that ends the
text. -/
theorem parseParagraphs_escapedFields (kvs : List (Str × Str)) (hne : kvs ≠ [])
    (hwf : ∀ kv ∈ kvs, wellFormedKey kv.1 ∧ cleanValue kv.2) :
    parseParagraphs (kvs.flatMap (fun kv => fieldLine (kv.1, dotEncodeValue kv.2))) =
      Outcome.ret ([{ Values := kvs.foldl (fun m kv => m.set kv.1 (readBack kv.2)) [],
                      Order := kvs.map Prod.fst }], none) := by
  have h := scanLines_escapedFields kvs [] { Values := [], Order := [] } [] hwf
  rw [List.append_nil, scanLines_eof [] _ _ (by simp)] at h
  have hlen : ¬ (([] : List Str) ++ kvs.map Prod.fst).length = 0 := by
    cases kvs with
    | nil => exact absurd rfl hne
    | cons a l => simp
  simp only [if_neg hlen] at h
  rw [parseParagraphs_eq, scanParagraphs_step, parseParagraph_eq, h]
  simp

/-- The text written by the loop of `marshalStruct` when every field that is
not skipped renders without error to a non-empty value: the escaped fields,
in order. -/
theorem marshalStructLoop_rendered (addressable : Bool) (P : Str → Prop)
    (fields : List (StructField × Value)) :
    ∀ (ret : Str),
      (∀ fv ∈ fields, ¬ skipped fv.1 →
        ∃ v, marshalStructValue addressable fv.1 fv.2 = Outcome.ret (v, none) ∧ v ≠ [] ∧ P v) →
      ∃ kvs : List (Str × Str),
        marshalStructLoop addressable fields ret =
          Outcome.ret (ret ++ kvs.flatMap (fun kv => fieldLine (kv.1, dotEncodeValue kv.2)), none) ∧
        kvs.map Prod.fst =
          (fields.filter (fun fv => decide (¬ skipped fv.1))).map (fun fv => paragraphKey fv.1) ∧
        (∀ kv ∈ kvs, P kv.2 ∧ ∃ fv ∈ fields, ¬ skipped fv.1 ∧ kv.1 = paragraphKey fv.1) ∧
        (∀ fv ∈ fields, ¬ skipped fv.1 → ∀ v,
          marshalStructValue addressable fv.1 fv.2 = Outcome.ret (v, none) →
          (paragraphKey fv.1, v) ∈ kvs) := by
  induction fields with
  | nil =>
    intro ret _
    exact ⟨[], by simp [marshalStructLoop], rfl, by simp, by simp⟩
  | cons fv fields ih =>
    intro ret h
    obtain ⟨ft, val⟩ := fv
    have hrest : ∀ fv ∈ fields, ¬ skipped fv.1 →
        ∃ v, marshalStructValue addressable fv.1 fv.2 = Outcome.ret (v, none) ∧ v ≠ [] ∧ P v :=
      fun x hx => h x (by simp [hx])
    by_cases hs : skipped ft
    · obtain ⟨kvs, h1, h2, h3, h4⟩ := ih ret hrest
      refine ⟨kvs, ?_, ?_, ?_, ?_⟩
      · unfold marshalStructLoop
        rw [if_pos (show paragraphKey ft = ['-'] ∨ ft.Anonymous = true from hs)]; exact h1
      · rw [h2]; simp [hs]
      · intro kv hkv
        obtain ⟨hp, fv, hfv, hns, hk⟩ := h3 kv hkv
        exact ⟨hp, fv, by simp [hfv], hns, hk⟩
      · intro fv hfv hns v hv
        simp only [List.mem_cons] at hfv
        rcases hfv with hfv | hfv
        · subst hfv; exact absurd hs hns
        · exact h4 fv hfv hns v hv
    · obtain ⟨v, hv, hvne, hP⟩ := h (ft, val) (by simp) hs
      obtain ⟨kvs, h1, h2, h3, h4⟩ :=
        ih (ret ++ fieldLine (paragraphKey ft, dotEncodeValue v)) hrest
      refine ⟨(paragraphKey ft, v) :: kvs, ?_, ?_, ?_, ?_⟩
      · unfold marshalStructLoop
        rw [if_neg (show ¬ (paragraphKey ft = ['-'] ∨ ft.Anonymous = true) from hs)]
        simp only at hv
        rw [hv]
        simp only
        rw [if_pos (dotEncodeValue_ne_nil v hvne)]
        have : ret ++ (paragraphKey ft ++ ':' :: ' ' :: dotEncodeValue v ++ ['\n']) =
            ret ++ fieldLine (paragraphKey ft, dotEncodeValue v) := rfl
        rw [this, h1]
        simp
      · simp [hs, h2]
      · intro kv hkv
        simp only [List.mem_cons] at hkv
        rcases hkv with hkv | hkv
        · subst hkv
          exact ⟨hP, (ft, val), by simp, hs, rfl⟩
        · obtain ⟨hp, fv, hfv, hns, hk⟩ := h3 kv hkv
          exact ⟨hp, fv, by simp [hfv], hns, hk⟩
      · intro fv hfv hns w hw
        simp only [List.mem_cons] at hfv
        rcases hfv with hfv | hfv
        · subst hfv
          simp only at hw hv
          rw [hv] at hw
          simp only [Outcome.ret.injEq, Prod.mk.injEq, and_true] at hw
          subst hw
          simp
        · exact List.mem_cons_of_mem _ (h4 fv hfv hns w hw)

theorem Marshal_recordValue (byPointer : Bool) (typeString : Str)
    (marshalControl : Option (Str × Option GoError)) (fields : List (StructField × Value)) :
    Marshal (recordValue byPointer typeString marshalControl fields) =
      marshalStructLoop byPointer fields [] := by
  cases byPointer <;> rfl

/-- C2, amended. Marshal/parse round trip: for a record handed to `Marshal`
by value or through a pointer, with at least one field that is not skipped,
whose paragraph keys are well formed and pairwise distinct and whose fields
that are not skipped render without error to non-empty values that are clean
(every line trimmed, no line after the first starting with `#`) and have no
blank line, `Marshal` succeeds, and parsing its text yields exactly one
paragraph, whose `Order` lists the keys in field order and whose `Values` maps
the key of every such field to its rendered value. -/
theorem Marshal_parse_roundtrip (byPointer : Bool) (typeString : Str)
    (marshalControl : Option (Str × Option GoError)) (fields : List (StructField × Value))
    (hsome : ∃ fv ∈ fields, ¬ skipped fv.1)
    (hkeys : ((fields.filter (fun fv => decide (¬ skipped fv.1))).map
      (fun fv => paragraphKey fv.1)).Nodup)
    (hfields : ∀ fv ∈ fields, ¬ skipped fv.1 →
      wellFormedKey (paragraphKey fv.1) ∧
        ∃ v, marshalStructValue byPointer fv.1 fv.2 = Outcome.ret (v, none) ∧ v ≠ [] ∧
          cleanValue v ∧ ¬ ['\n', '\n'] <:+: v) :
    ∃ text p,
      Marshal (recordValue byPointer typeString marshalControl fields) = Outcome.ret (text, none) ∧
      parseParagraphs text = Outcome.ret ([p], none) ∧
      p.Order = (fields.filter (fun fv => decide (¬ skipped fv.1))).map
        (fun fv => paragraphKey fv.1) ∧
      ∀ fv ∈ fields, ¬ skipped fv.1 → ∀ v,
        marshalStructValue byPointer fv.1 fv.2 = Outcome.ret (v, none) →
        p.Values.get (paragraphKey fv.1) = v := by
  obtain ⟨kvs, h1, h2, h3, h4⟩ :=
    marshalStructLoop_rendered byPointer (fun v => cleanValue v ∧ ¬ ['\n', '\n'] <:+: v) fields []
      (fun fv hfv hns => by
        obtain ⟨_, v, hv, hne, hc, hb⟩ := hfields fv hfv hns
        exact ⟨v, hv, hne, hc, hb⟩)
  have hwf : ∀ kv ∈ kvs, wellFormedKey kv.1 ∧ cleanValue kv.2 := by
    intro kv hkv
    obtain ⟨hp, fv, hfv, hns, hk⟩ := h3 kv hkv
    exact ⟨hk ▸ (hfields fv hfv hns).1, hp.1⟩
  have hne : kvs ≠ [] := by
    obtain ⟨fv, hfv, hns⟩ := hsome
    obtain ⟨_, v, hv, _⟩ := hfields fv hfv hns
    exact List.ne_nil_of_mem (h4 fv hfv hns v hv)
  refine ⟨_, _, ?_, parseParagraphs_escapedFields kvs hne hwf, h2, ?_⟩
  · rw [Marshal_recordValue, h1]; rfl
  · intro fv hfv hns v hv
    have hmem := h4 fv hfv hns v hv
    simp only
    rw [StrMap.get_foldl_mem readBack kvs [] _ v (h2 ▸ hkeys) hmem]
    exact readBack_eq_self v (h3 _ hmem).1.2

theorem Marshal_parse_roundtrip_witness :
    ∃ text p,
      Marshal (recordValue true "*Package".toList none
        [(⟨"Name".toList, "Package".toList, [], false⟩, Value.String "hello".toList),
         (⟨"Hidden".toList, "-".toList, [], false⟩, Value.String "x".toList),
         (⟨"Size".toList, [], [], false⟩, Value.Int 42),
         (⟨"Description".toList, [], [], false⟩, Value.String "short\nlong text".toList)]) =
        Outcome.ret (text, none) ∧
      parseParagraphs text = Outcome.ret ([p], none) ∧
      p.Order = ["Package".toList, "Size".toList, "Description".toList] ∧
      ∀ fv ∈ [((⟨"Name".toList, "Package".toList, [], false⟩ : StructField),
                Value.String "hello".toList),
         (⟨"Hidden".toList, "-".toList, [], false⟩, Value.String "x".toList),
         (⟨"Size".toList, [], [], false⟩, Value.Int 42),
         (⟨"Description".toList, [], [], false⟩, Value.String "short\nlong text".toList)],
        ¬ skipped fv.1 → ∀ v,
        marshalStructValue true fv.1 fv.2 = Outcome.ret (v, none) →
        p.Values.get (paragraphKey fv.1) = v :=
  Marshal_parse_roundtrip true "*Package".toList none _
    ⟨_, List.mem_cons_self _ _, by decide⟩ (by decide)
    (by
      intro fv hfv hns
      simp only [List.mem_cons, List.mem_singleton, List.not_mem_nil, or_false] at hfv
      rcases hfv with rfl | rfl | rfl | rfl
      · exact ⟨by decide, "hello".toList, rfl, by decide, by decide, by decide⟩
      · exact absurd (by decide) hns
      · exact ⟨by decide, "42".toList, by decide, by decide, by decide, by decide⟩
      · exact ⟨by decide, "short\nlong text".toList, rfl, by decide, by decide, by decide⟩)

/-- C2 fails as stated: the fields of the three records below render to
non-empty text, yet the paragraph parsed from the marshalled text does not map
every key to the rendered value.  A value with a leading space is read back
trimmed; a value with a blank line is read back with a lone dot; of two fields
with the same key only the last value is kept. -/
theorem Marshal_parse_roundtrip_fails :
    (Marshal (Value.Struct none
        [(⟨"Name".toList, [], [], false⟩, Value.String " a".toList)]) =
        Outcome.ret ("Name:  a\n".toList, none) ∧
      parseParagraphs "Name:  a\n".toList =
        Outcome.ret ([⟨[("Name".toList, "a".toList)], ["Name".toList]⟩], none)) ∧
    (Marshal (Value.Struct none
        [(⟨"Name".toList, [], [], false⟩, Value.String "a\n\nb".toList)]) =
        Outcome.ret ("Name: a\n .\n b\n".toList, none) ∧
      parseParagraphs "Name: a\n .\n b\n".toList =
        Outcome.ret ([⟨[("Name".toList, "a\n.\nb".toList)], ["Name".toList]⟩], none)) ∧
    (Marshal (Value.Struct none
        [(⟨"A".toList, "Key".toList, [], false⟩, Value.String "x".toList),
         (⟨"B".toList, "Key".toList, [], false⟩, Value.String "y".toList)]) =
        Outcome.ret ("Key: x\nKey: y\n".toList, none) ∧
      parseParagraphs "Key: x\nKey: y\n".toList =
        Outcome.ret ([⟨[("Key".toList, "y".toList)], ["Key".toList, "Key".toList]⟩], none)) := by
  decide

/-- Without three newlines in a row, the escaper writes a lone dot for every
empty line that has a successor. -/
theorem dotLines_eq_keepDots (n : Nat) :
    ∀ (ls : List Str) (l0 : Str), ls.length ≤ n →
      ¬ ['\n', '\n', '\n'] <:+: joinLines l0 ls → dotLines ls = keepDots ls := by
  induction n with
  | zero =>
    intro ls l0 hlen _
    have : ls = [] := List.length_eq_zero.mp (by omega)
    subst this; rfl
  | succ n ih =>
    intro ls l0 hlen h
    match ls, hlen, h with
    | [], _, _ => rfl
    | [l], _, _ => rfl
    | [l, l'], _, _ =>
      simp only [dotLines, keepDots]
      split <;> rfl
    | l :: l' :: r :: rs, hlen, h =>
      simp only [List.length_cons] at hlen
      by_cases he : l = []
      · subst he
        have hl' : l' ≠ [] := by
          intro e
          subst e
          apply h
          refine ⟨l0, r ++ rs.flatMap (fun l => '\n' :: l), ?_⟩
          simp [joinLines]
        have hstep : joinLines l0 ([] :: l' :: r :: rs) =
            joinLines (l0 ++ '\n' :: '\n' :: l') (r :: rs) := by
          simp [joinLines]
        rw [hstep] at h
        have := ih (r :: rs) _ (by simp only [List.length_cons]; omega) h
        simp only [dotLines, keepDots, if_true, if_neg hl']
        rw [this]
      · have hstep : joinLines l0 (l :: l' :: r :: rs) =
            joinLines (l0 ++ '\n' :: l) (l' :: r :: rs) := by
          simp [joinLines]
        rw [hstep] at h
        have := ih (l' :: r :: rs) _ (by simp only [List.length_cons]; omega) h
        rw [dotLines, if_neg he, this]
        simp only [keepDots, if_neg he]

/-- C1, amended. Escape/parse of one field: for every well-formed key `k`
(trimmed, without colon or newline, not starting with `#`) and every clean
value `v` (every line trimmed, no line after the first starting with `#`)
without three newlines in a row, parsing `k: ` followed by the escaped `v` and
a newline yields exactly one paragraph, with `Order = [k]` and `Values[k]` the
value `v` with every blank line kept as the lone `.` that the escaper wrote:
the scanner does not decode the dot. -/
theorem dotEncode_parse_dotted (k v : Str) (hk : wellFormedKey k) (hv : cleanValue v)
    (hv3 : ¬ ['\n', '\n', '\n'] <:+: v) :
    parseParagraphs (k ++ ':' :: ' ' :: dotEncodeValue v ++ ['\n']) =
      Outcome.ret ([{ Values := [(k, dottedValue v)], Order := [k] }], none) := by
  have h := parseParagraphs_escapedField k v hk hv
  have hd : readBack v = dottedValue v := by
    unfold readBack dottedValue
    rw [dotLines_eq_keepDots _ _ (lines v).1 (le_refl _) (by rw [joinLines_lines]; exact hv3)]
  rw [hd] at h
  exact h

theorem dotEncode_parse_dotted_witness :
    dottedValue "a\n\nb\n\nc".toList = "a\n.\nb\n.\nc".toList ∧
      parseParagraphs ("K".toList ++ ':' :: ' ' :: dotEncodeValue "a\n\nb\n\nc".toList ++ ['\n']) =
        Outcome.ret ([{ Values := [("K".toList, dottedValue "a\n\nb\n\nc".toList)],
                        Order := ["K".toList] }], none) :=
  ⟨by decide, dotEncode_parse_dotted "K".toList "a\n\nb\n\nc".toList (by decide) (by decide)
    (by decide)⟩

/-! ## A text that ends with a blank line -/

/-- A text followed by a newline is a run of complete lines. -/
theorem complete_lines (ls : List Str) :
    ∀ (l0 : Str), joinLines l0 ls ++ ['\n'] = (l0 :: ls).flatMap (fun b => b ++ ['\n']) := by
  induction ls with
  | nil => intro l0; simp [joinLines]
  | cons l ls ih =>
    intro l0
    have h := ih l
    simp only [joinLines, List.flatMap_cons, List.append_assoc, List.cons_append] at h ⊢
    rw [h]
    simp

/-- Scanning one paragraph in a run of complete lines closed by a blank line:
the scan ends with a syntax error, or a blank line inside the run closes the
paragraph and fewer lines remain, or the closing blank line does and nothing
remains. -/
theorem scanLines_blank_end (pre : List Str) :
    ∀ (ret : Paragraph) (key : Str), (∀ b ∈ pre, '\n' ∉ b) →
      (∃ e rest, scanLines (pre.flatMap (fun b => b ++ ['\n']) ++ ['\n']) ret key =
          (none, some (GoError.Errorf notKeyValFormat e), rest)) ∨
      (∃ (p : Paragraph) (pre' : List Str), pre'.length < pre.length ∧ (∀ b ∈ pre', '\n' ∉ b) ∧
          scanLines (pre.flatMap (fun b => b ++ ['\n']) ++ ['\n']) ret key =
            (some p, none, pre'.flatMap (fun b => b ++ ['\n']) ++ ['\n'])) ∨
      (∃ p : Paragraph, scanLines (pre.flatMap (fun b => b ++ ['\n']) ++ ['\n']) ret key =
          (some p, none, [])) := by
  induction pre with
  | nil =>
    intro ret key _
    right; right
    refine ⟨ret, ?_⟩
    have := scanLines_line [] [] ret key (by simp)
    simpa using this
  | cons b pre ih =>
    intro ret key h
    have hb := h b (by simp)
    have hpre : ∀ x ∈ pre, '\n' ∉ x := fun x hx => h x (by simp [hx])
    have hshape : (b :: pre).flatMap (fun b => b ++ ['\n']) ++ ['\n'] =
        b ++ '\n' :: (pre.flatMap (fun b => b ++ ['\n']) ++ ['\n']) := by
      simp
    have lift : ∀ r k,
        (∃ e rest, scanLines (pre.flatMap (fun b => b ++ ['\n']) ++ ['\n']) r k =
            (none, some (GoError.Errorf notKeyValFormat e), rest)) ∨
        (∃ (p : Paragraph) (pre' : List Str), pre'.length < (b :: pre).length ∧
            (∀ b ∈ pre', '\n' ∉ b) ∧
            scanLines (pre.flatMap (fun b => b ++ ['\n']) ++ ['\n']) r k =
              (some p, none, pre'.flatMap (fun b => b ++ ['\n']) ++ ['\n'])) ∨
        (∃ p : Paragraph, scanLines (pre.flatMap (fun b => b ++ ['\n']) ++ ['\n']) r k =
            (some p, none, [])) := by
      intro r k
      rcases ih r k hpre with h1 | ⟨p, pre', hl, hp, he⟩ | h3
      · exact Or.inl h1
      · exact Or.inr (Or.inl ⟨p, pre', by simp; omega, hp, he⟩)
      · exact Or.inr (Or.inr h3)
    rw [hshape, scanLines_line _ _ _ _ hb]
    by_cases c1 : b ++ ['\n'] = ['\n']
    · rw [if_pos c1]
      exact Or.inr (Or.inl ⟨ret, pre, by simp, hpre, rfl⟩)
    · rw [if_neg c1]
      by_cases c2 : (TrimLeft (b ++ ['\n']) noop).head? = some '#'
      · rw [if_pos c2]; exact lift _ _
      · rw [if_neg c2]
        by_cases c3 : (b ++ ['\n']).head? = some ' '
        · rw [if_pos c3]; exact lift _ _
        · rw [if_neg c3]
          by_cases hc : ':' ∈ b ++ ['\n']
          · obtain ⟨x, y, hxy, _, _⟩ := SplitN2_mem _ hc
            rw [hxy]
            exact lift _ _
          · rw [SplitN2_none _ hc]
            exact Or.inl ⟨_, _, rfl⟩

theorem scanParagraphs_blank_end (n : Nat) :
    ∀ (pre : List Str) (ret : List Paragraph), pre.length ≤ n → (∀ b ∈ pre, '\n' ∉ b) →
      scanParagraphs (pre.flatMap (fun b => b ++ ['\n']) ++ ['\n']) ret = Outcome.panic ∨
        ∃ e, scanParagraphs (pre.flatMap (fun b => b ++ ['\n']) ++ ['\n']) ret =
          Outcome.ret ([], some e) := by
  have hend : ∀ ret, scanParagraphs [] ret = Outcome.panic := by
    intro ret
    rw [scanParagraphs_step]
    rfl
  induction n with
  | zero =>
    intro pre ret hlen h
    rw [scanParagraphs_step, parseParagraph_eq]
    rcases scanLines_blank_end pre { Values := [], Order := [] } [] h with
      ⟨e, rest, he⟩ | ⟨p, pre', hl, _, _⟩ | ⟨p, he⟩
    · rw [he]; exact Or.inr ⟨_, rfl⟩
    · omega
    · rw [he]; exact Or.inl (hend _)
  | succ n ih =>
    intro pre ret hlen h
    rw [scanParagraphs_step, parseParagraph_eq]
    rcases scanLines_blank_end pre { Values := [], Order := [] } [] h with
      ⟨e, rest, he⟩ | ⟨p, pre', hl, hp, he⟩ | ⟨p, he⟩
    · rw [he]; exact Or.inr ⟨_, rfl⟩
    · rw [he]; exact ih pre' _ (by omega) hp
    · rw [he]; exact Or.inl (hend _)

/-- C3 fails on the code: on every input that ends with `"\n\n"`,
`parseParagraphs` either panics (the call after the last blank line returns a
nil paragraph with `io.EOF`, which is dereferenced) or returns a syntax error
with no paragraphs; it never returns a paragraph sequence. -/
theorem parseParagraphs_blank_end (input : Str) (h : ['\n', '\n'] <:+ input) :
    parseParagraphs input = Outcome.panic ∨
      ∃ e, parseParagraphs input = Outcome.ret ([], some e) := by
  obtain ⟨t, ht⟩ := h
  have hn := lines_no_newline t
  have hshape : input = ((lines t).1 :: (lines t).2).flatMap (fun b => b ++ ['\n']) ++ ['\n'] := by
    rw [← complete_lines, joinLines_lines, ← ht]
    simp
  rw [hshape, parseParagraphs_eq]
  exact scanParagraphs_blank_end _ _ _ (le_refl _) (fun b hb => by
    simp only [List.mem_cons] at hb
    rcases hb with hb | hb
    · rw [hb]; exact hn.1
    · exact hn.2 b hb)

theorem parseParagraphs_blank_end_witness :
    parseParagraphs "Key: a\n\n".toList = Outcome.panic ∧
      (parseParagraphs "Key: a\n\n".toList = Outcome.panic ∨
        ∃ e, parseParagraphs "Key: a\n\n".toList = Outcome.ret ([], some e)) :=
  ⟨by decide, parseParagraphs_blank_end "Key: a\n\n".toList (by decide)⟩

/-! ## The association list -/

theorem StrMap.mem_keys_set (m : StrMap) (k v k' : Str) :
    k' ∈ (m.set k v).keys ↔ k' = k ∨ k' ∈ m.keys := by
  induction m with
  | nil => simp [StrMap.set, StrMap.keys]
  | cons kv rest ih =>
    obtain ⟨k0, v0⟩ := kv
    unfold StrMap.set
    by_cases h : k0 = k
    · subst h
      simp [StrMap.keys]
    · simp only [h, if_false]
      simp only [StrMap.keys, List.map_cons, List.mem_cons] at ih ⊢
      rw [ih]
      tauto

/-! ## Invariant of the scanner -/

/-- Every key of `Order` is a key of `Values`, preserved by the loop. -/
theorem parseParagraphLoop_order_mem (fuel : Nat) :
    ∀ (reader : Str) (ret : Paragraph) (key : Str) (p : Paragraph)
      (err : Option GoError) (reader' : Str),
      (∀ k ∈ ret.Order, k ∈ ret.Values.keys) →
      parseParagraphLoop fuel reader ret key = (some p, err, reader') →
      ∀ k ∈ p.Order, k ∈ p.Values.keys := by
  induction fuel with
  | zero =>
    intro reader ret key p err reader' _ h
    simp [parseParagraphLoop] at h
  | succ n ih =>
    intro reader ret key p err reader' hinv h
    unfold parseParagraphLoop at h
    rcases hrs : ReadString reader with ⟨line, r1, eof⟩
    rw [hrs] at h
    cases eof with
    | true =>
      simp only at h
      split at h
      · simp at h
      · simp only [Prod.mk.injEq, Option.some.injEq] at h
        rw [← h.1]; exact hinv
    | false =>
      simp only at h
      split at h
      · simp only [Prod.mk.injEq, Option.some.injEq] at h
        rw [← h.1]; exact hinv
      · split at h
        · exact ih r1 _ _ _ _ _ hinv h
        · split at h
          · refine ih r1 _ _ _ _ _ ?_ h
            intro k hk
            exact (StrMap.mem_keys_set _ _ _ _).2 (Or.inr (hinv k hk))
          · split at h
            · refine ih r1 _ _ _ _ _ ?_ h
              intro k hk
              simp only [List.mem_append, List.mem_singleton] at hk
              rcases hk with hk | hk
              · exact (StrMap.mem_keys_set _ _ _ _).2 (Or.inr (hinv k hk))
              · exact (StrMap.mem_keys_set _ _ _ _).2 (Or.inl hk)
            · simp at h

/-- C10. Membership half of the paragraph invariant: whenever `parseParagraph`
returns a paragraph, every key occurring in its `Order` is a key of its
`Values`. -/
theorem parseParagraph_order_mem_values (reader : Str) (p : Paragraph)
    (err : Option GoError) (rest : Str)
    (h : parseParagraph reader = (some p, err, rest)) :
    ∀ k ∈ p.Order, k ∈ p.Values.keys :=
  parseParagraphLoop_order_mem _ reader _ _ p err rest (by simp) h

theorem parseParagraph_order_mem_values_witness :
    parseParagraph "Key: a\n b\nOther: c\n\n".toList =
        (some ⟨[("Key".toList, "a\nb".toList), ("Other".toList, "c".toList)],
          ["Key".toList, "Other".toList]⟩, none, []) ∧
      ∀ k ∈ ["Key".toList, "Other".toList],
        k ∈ StrMap.keys [("Key".toList, "a\nb".toList), ("Other".toList, "c".toList)] :=
  ⟨by decide, parseParagraph_order_mem_values "Key: a\n b\nOther: c\n\n".toList
    ⟨[("Key".toList, "a\nb".toList), ("Other".toList, "c".toList)],
      ["Key".toList, "Other".toList]⟩ none [] (by decide)⟩

/-! ## Behaviour at concrete inputs -/

/-- C9 (size half of the paragraph invariant) fails when a block begins with
a continuation line: `parseParagraph` on `" x\n\n"` returns a paragraph whose
`Values` has the one key `""` and whose `Order` is empty. -/
theorem parseParagraph_leading_continuation :
    parseParagraph " x\n\n".toList = (some ⟨[([], "\nx".toList)], []⟩, none, []) ∧
      ¬ (StrMap.keys [(([] : Str), "\nx".toList)]).dedup.length ≤ ([] : List Str).length := by
  decide

/-- C3 fails on the code: on `"Key: a\n\n"` the call after the closing blank
line meets the end of the text with no field, `parseParagraph` returns a nil
paragraph with `io.EOF`, and `parseParagraphs` panics dereferencing it. -/
theorem parseParagraphs_trailing_blank_panics :
    parseParagraph "Key: a\n\n".toList =
        (some ⟨[("Key".toList, "a".toList)], ["Key".toList]⟩, none, []) ∧
      parseParagraph [] = (none, some GoError.EOF, []) ∧
      parseParagraphs "Key: a\n\n".toList = Outcome.panic := by
  decide

/-- C5 fails on the code: on `"A: 1\n\n\nB: 2\n"` the second blank line closes
a paragraph without fields, and `parseParagraphs` returns it. -/
theorem parseParagraphs_emits_empty_paragraph :
    parseParagraphs "A: 1\n\n\nB: 2\n".toList =
      Outcome.ret ([⟨[("A".toList, "1".toList)], ["A".toList]⟩, ⟨[], []⟩,
        ⟨[("B".toList, "2".toList)], ["B".toList]⟩], none) ∧
      (⟨[], []⟩ : Paragraph).Order = [] := by
  decide

/-- C1 fails as stated: for the key `"K"` and the value `"a\n\nb"` the scanner
keeps the lone `.` written by the escaper, so the value read back is
`"a\n.\nb"`. -/
theorem dotEncode_parse_keeps_dot :
    dotEncodeValue "a\n\nb".toList = "a\n .\n b".toList ∧
      parseParagraphs ("K".toList ++ ": ".toList ++ dotEncodeValue "a\n\nb".toList ++ "\n".toList) =
        Outcome.ret ([⟨[("K".toList, "a\n.\nb".toList)], ["K".toList]⟩], none) ∧
      StrMap.get [("K".toList, "a\n.\nb".toList)] "K".toList ≠ "a\n\nb".toList := by
  decide

/-! ## The scanner on a run of complete lines -/

/-- The loop of `parseParagraph` on a text that starts with a run of complete
lines does what `runLines` says, whatever follows the run. -/
theorem scanLines_runLines (bs : List Str) :
    ∀ (ret : Paragraph) (key : Str) (rest : Str), (∀ b ∈ bs, '\n' ∉ b) →
      scanLines (linesText bs ++ rest) ret key =
        match runLines bs ret key with
        | BlockEnd.closed p unread => (some p, none, linesText unread ++ rest)
        | BlockEnd.failed line unread =>
          (none, some (GoError.Errorf notKeyValFormat line), linesText unread ++ rest)
        | BlockEnd.running ret' key' => scanLines rest ret' key' := by
  induction bs with
  | nil => intro ret key rest _; rfl
  | cons b bs ih =>
    intro ret key rest h
    have hb := h b (by simp)
    have hbs : ∀ x ∈ bs, '\n' ∉ x := fun x hx => h x (by simp [hx])
    have hshape : linesText (b :: bs) ++ rest = b ++ '\n' :: (linesText bs ++ rest) := by
      simp [linesText]
    rw [hshape, scanLines_line _ _ _ _ hb]
    unfold runLines
    by_cases c1 : b ++ ['\n'] = ['\n']
    · rw [if_pos c1, if_pos c1]
    · rw [if_neg c1, if_neg c1]
      by_cases c2 : (TrimLeft (b ++ ['\n']) noop).head? = some '#'
      · rw [if_pos c2, if_pos c2]; exact ih _ _ _ hbs
      · rw [if_neg c2, if_neg c2]
        by_cases c3 : (b ++ ['\n']).head? = some ' '
        · rw [if_pos c3, if_pos c3]; exact ih _ _ _ hbs
        · rw [if_neg c3, if_neg c3]
          by_cases hc : ':' ∈ b ++ ['\n']
          · obtain ⟨x, y, hxy, _, _⟩ := SplitN2_mem _ hc
            rw [hxy]
            exact ih _ _ _ hbs
          · rw [SplitN2_none _ hc]

/-- A paragraph closed inside a run leaves fewer lines unread. -/
theorem runLines_closed_length (bs : List Str) :
    ∀ (ret : Paragraph) (key : Str) (p : Paragraph) (unread : List Str),
      runLines bs ret key = BlockEnd.closed p unread → unread.length < bs.length := by
  induction bs with
  | nil => intro ret key p unread h; simp [runLines] at h
  | cons b bs ih =>
    intro ret key p unread h
    unfold runLines at h
    simp only [List.length_cons]
    split at h
    · simp only [BlockEnd.closed.injEq] at h
      rw [← h.2]; omega
    · split at h
      · have := ih _ _ _ _ h; omega
      · split at h
        · have := ih _ _ _ _ h; omega
        · split at h
          · have := ih _ _ _ _ h; omega
          · simp at h

/-- The unread lines are lines of the run. -/
theorem runLines_closed_mem (bs : List Str) :
    ∀ (ret : Paragraph) (key : Str) (p : Paragraph) (unread : List Str),
      runLines bs ret key = BlockEnd.closed p unread → ∀ b ∈ unread, b ∈ bs := by
  induction bs with
  | nil => intro ret key p unread h; simp [runLines] at h
  | cons b bs ih =>
    intro ret key p unread h
    unfold runLines at h
    split at h
    · simp only [BlockEnd.closed.injEq] at h
      rw [← h.2]; intro x hx; simp [hx]
    · split at h
      · intro x hx; exact List.mem_cons_of_mem _ (ih _ _ _ _ h x hx)
      · split at h
        · intro x hx; exact List.mem_cons_of_mem _ (ih _ _ _ _ h x hx)
        · split at h
          · intro x hx; exact List.mem_cons_of_mem _ (ih _ _ _ _ h x hx)
          · simp at h

/-- A text that is empty or ends with a newline is a run of complete lines. -/
theorem exists_linesText (pre : Str) (h : pre = [] ∨ ['\n'] <:+ pre) :
    ∃ bs : List Str, (∀ b ∈ bs, '\n' ∉ b) ∧ pre = linesText bs := by
  rcases h with h | ⟨t, ht⟩
  · exact ⟨[], by simp, by rw [h]; rfl⟩
  · have hn := lines_no_newline t
    refine ⟨(lines t).1 :: (lines t).2, ?_, ?_⟩
    · intro b hb
      simp only [List.mem_cons] at hb
      rcases hb with hb | hb
      · rw [hb]; exact hn.1
      · exact hn.2 b hb
    · unfold linesText
      rw [← complete_lines, joinLines_lines, ht]


/-! ## Unterminated last line and comment lines -/

theorem scanParagraphs_unterminated (t : Str) (ht : '\n' ∉ t) (n : Nat) :
    ∀ (bs : List Str) (ret : List Paragraph), bs.length ≤ n → (∀ b ∈ bs, '\n' ∉ b) →
      scanParagraphs (linesText bs ++ t) ret = scanParagraphs (linesText bs ++ []) ret := by
  induction n with
  | zero =>
    intro bs ret hlen h
    rw [scanParagraphs_step, scanParagraphs_step (linesText bs ++ []), parseParagraph_eq,
      parseParagraph_eq, scanLines_runLines bs _ _ t h, scanLines_runLines bs _ _ [] h]
    cases hr : runLines bs { Values := [], Order := [] } [] with
    | closed p unread => have := runLines_closed_length _ _ _ _ _ hr; omega
    | failed line unread => rfl
    | running ret' key' =>
      simp only
      rw [scanLines_eof t _ _ ht, scanLines_eof [] _ _ (by simp)]
  | succ n ih =>
    intro bs ret hlen h
    rw [scanParagraphs_step, scanParagraphs_step (linesText bs ++ []), parseParagraph_eq,
      parseParagraph_eq, scanLines_runLines bs _ _ t h, scanLines_runLines bs _ _ [] h]
    cases hr : runLines bs { Values := [], Order := [] } [] with
    | closed p unread =>
      simp only
      exact ih unread _ (by have := runLines_closed_length _ _ _ _ _ hr; omega)
        (fun b hb => h b (runLines_closed_mem _ _ _ _ _ hr b hb))
    | failed line unread => rfl
    | running ret' key' =>
      simp only
      rw [scanLines_eof t _ _ ht, scanLines_eof [] _ _ (by simp)]

/-- C20. An unterminated final line is silently discarded: for every text
`pre` that is empty or ends with a newline and every text `t` without a
newline, `parseParagraphs (pre ++ t)` has the same outcome (paragraphs, error
or panic) as `parseParagraphs pre`. -/
theorem parseParagraphs_unterminated (pre t : Str) (hpre : pre = [] ∨ ['\n'] <:+ pre)
    (ht : '\n' ∉ t) : parseParagraphs (pre ++ t) = parseParagraphs pre := by
  obtain ⟨bs, hbs, rfl⟩ := exists_linesText pre hpre
  have := scanParagraphs_unterminated t ht bs.length bs [] (le_refl _) hbs
  rw [List.append_nil] at this
  exact this

theorem parseParagraphs_unterminated_witness :
    parseParagraphs "A: 1\nB: 2".toList = parseParagraphs "A: 1\n".toList ∧
      parseParagraphs "A: 1\n".toList =
        Outcome.ret ([⟨[("A".toList, "1".toList)], ["A".toList]⟩], none) ∧
      parseParagraphs "A: 1\nBadLine".toList = parseParagraphs "A: 1\n".toList :=
  ⟨parseParagraphs_unterminated "A: 1\n".toList "B: 2".toList (by decide) (by decide),
    by decide,
    parseParagraphs_unterminated "A: 1\n".toList "BadLine".toList (by decide) (by decide)⟩

/-- Left-trimming space, tab and CR finds the `#` that left-trimming the
cutset of the scanner finds. -/
theorem isComment_of_TrimLeft (c : Str) (h : (TrimLeft c [' ', '\t', '\r']).head? = some '#') :
    isComment c := by
  unfold isComment
  induction c with
  | nil => simp [TrimLeft] at h
  | cons x xs ih =>
    by_cases hx : x ∈ [' ', '\t', '\r']
    · rw [TrimLeft_cons_mem _ _ _ hx] at h
      have hx' : x ∈ noop := by
        simp only [List.mem_cons, List.mem_singleton, List.not_mem_nil, or_false] at hx
        rcases hx with rfl | rfl | rfl <;> decide
      rw [TrimLeft_cons_mem _ _ _ hx']
      exact ih h
    · rw [TrimLeft_cons_not_mem _ _ _ hx] at h
      simp only [List.head?_cons, Option.some.injEq] at h
      subst h
      rw [TrimLeft_cons_not_mem _ _ _ (by decide)]
      rfl

theorem scanParagraphs_comment (c post : Str) (hc : '\n' ∉ c) (hcomment : isComment (c ++ ['\n']))
    (n : Nat) :
    ∀ (bs : List Str) (ret : List Paragraph), bs.length ≤ n → (∀ b ∈ bs, '\n' ∉ b) →
      scanParagraphs (linesText bs ++ (c ++ '\n' :: post)) ret =
        scanParagraphs (linesText bs ++ post) ret := by
  have hstep : ∀ r k, scanLines (c ++ '\n' :: post) r k = scanLines post r k := by
    intro r k
    have hne : c ++ ['\n'] ≠ ['\n'] := by
      intro e
      have : c = [] := by simpa using e
      subst this
      revert hcomment
      decide
    rw [scanLines_line _ _ _ _ hc, if_neg hne,
      if_pos (show (TrimLeft (c ++ ['\n']) noop).head? = some '#' from hcomment)]
  induction n with
  | zero =>
    intro bs ret hlen h
    rw [scanParagraphs_step, scanParagraphs_step (linesText bs ++ post), parseParagraph_eq,
      parseParagraph_eq, scanLines_runLines bs _ _ _ h, scanLines_runLines bs _ _ post h]
    cases hr : runLines bs { Values := [], Order := [] } [] with
    | closed p unread => have := runLines_closed_length _ _ _ _ _ hr; omega
    | failed line unread => rfl
    | running ret' key' =>
      simp only
      rw [hstep]
  | succ n ih =>
    intro bs ret hlen h
    rw [scanParagraphs_step, scanParagraphs_step (linesText bs ++ post), parseParagraph_eq,
      parseParagraph_eq, scanLines_runLines bs _ _ _ h, scanLines_runLines bs _ _ post h]
    cases hr : runLines bs { Values := [], Order := [] } [] with
    | closed p unread =>
      simp only
      exact ih unread _ (by have := runLines_closed_length _ _ _ _ _ hr; omega)
        (fun b hb => h b (runLines_closed_mem _ _ _ _ _ hr b hb))
    | failed line unread => rfl
    | running ret' key' =>
      simp only
      rw [hstep]

/-- C12. Comment lines are transparent: for every text `pre` that is empty or
ends with a newline and every newline-terminated line `c` whose first
character after left-trimming space, tab and CR is `#` (also when `c` begins
with a space), `parseParagraphs (pre ++ c ++ post)` has the same outcome as
`parseParagraphs (pre ++ post)`. -/
theorem parseParagraphs_comment_transparent (pre c post : Str)
    (hpre : pre = [] ∨ ['\n'] <:+ pre) (hc : '\n' ∉ c)
    (hcomment : (TrimLeft (c ++ ['\n']) [' ', '\t', '\r']).head? = some '#') :
    parseParagraphs (pre ++ (c ++ ['\n']) ++ post) = parseParagraphs (pre ++ post) := by
  obtain ⟨bs, hbs, rfl⟩ := exists_linesText pre hpre
  have := scanParagraphs_comment c post hc (isComment_of_TrimLeft _ hcomment) bs.length bs []
    (le_refl _) hbs
  simpa [parseParagraphs_eq] using this

theorem parseParagraphs_comment_transparent_witness :
    parseParagraphs ("Key: a\n".toList ++ (" # comment".toList ++ ['\n']) ++ "Key2: b\n".toList) =
        parseParagraphs ("Key: a\n".toList ++ "Key2: b\n".toList) ∧
      parseParagraphs ("Key: a\n".toList ++ "Key2: b\n".toList) =
        Outcome.ret ([⟨[("Key".toList, "a".toList), ("Key2".toList, "b".toList)],
          ["Key".toList, "Key2".toList]⟩], none) :=
  ⟨parseParagraphs_comment_transparent "Key: a\n".toList " # comment".toList "Key2: b\n".toList
    (by decide) (by decide) (by decide), by decide⟩


/-! ## Field lines and continuation lines, for every state of the loop -/

/-- One iteration of the loop on a field line `a:r`: the line is split at its
first colon. -/
theorem scanLines_field (a r rest : Str) (ret : Paragraph) (key : Str)
    (ha : '\n' ∉ a) (hr : '\n' ∉ r) (hcolon : ':' ∉ a)
    (hcomment : ¬ isComment (a ++ ':' :: r ++ ['\n']))
    (hspace : (a ++ ':' :: r ++ ['\n']).head? ≠ some ' ') :
    scanLines (a ++ ':' :: r ++ '\n' :: rest) ret key =
      scanLines rest
        { Values := ret.Values.set (Trim a noop) (Trim (r ++ ['\n']) noop),
          Order := ret.Order ++ [Trim a noop] }
        (Trim a noop) := by
  have hbody : '\n' ∉ a ++ ':' :: r := by
    simp only [List.mem_append, List.mem_cons, not_or]
    exact ⟨ha, by decide, hr⟩
  have hne : (a ++ ':' :: r) ++ ['\n'] ≠ ['\n'] := by
    cases a <;> simp
  have hsplit : SplitN2 ((a ++ ':' :: r) ++ ['\n']) ':' = [a, r ++ ['\n']] := by
    have := SplitN2_colon a (r ++ ['\n']) hcolon
    simpa using this
  rw [scanLines_line _ _ _ _ hbody, if_neg hne,
    if_neg (show ¬ (TrimLeft ((a ++ ':' :: r) ++ ['\n']) noop).head? = some '#' from hcomment),
    if_neg hspace, hsplit]

/-- C14. Field lines split at the first colon only: for every state of the
loop of `parseParagraph` and every newline-terminated line `a:r` that is not a
comment, does not start with a space and has no colon in `a` (`r` may contain
further colons), the loop sets `Values[trim a] = trim r`, appends `trim a` to
`Order`, leaves the other values alone and goes on with `trim a` as the
current key; and `parseParagraph` on that line followed by a blank line
returns the paragraph with `Values = {trim a: trim r}` and `Order = [trim a]`. -/
theorem parseParagraph_field_line (a r rest : Str) (ret : Paragraph) (key : Str)
    (ha : '\n' ∉ a) (hr : '\n' ∉ r) (hcolon : ':' ∉ a)
    (hcomment : ¬ isComment (a ++ ':' :: r ++ ['\n']))
    (hspace : (a ++ ':' :: r ++ ['\n']).head? ≠ some ' ') :
    (∃ ret' : Paragraph,
      scanLines (a ++ ':' :: r ++ '\n' :: rest) ret key = scanLines rest ret' (Trim a noop) ∧
      ret'.Values.get (Trim a noop) = Trim (r ++ ['\n']) noop ∧
      ret'.Order = ret.Order ++ [Trim a noop] ∧
      ∀ k', k' ≠ Trim a noop → ret'.Values.get k' = ret.Values.get k') ∧
    parseParagraph (a ++ ':' :: r ++ '\n' :: '\n' :: rest) =
      (some { Values := [(Trim a noop, Trim (r ++ ['\n']) noop)], Order := [Trim a noop] },
        none, rest) := by
  refine ⟨⟨_, scanLines_field a r rest ret key ha hr hcolon hcomment hspace,
    StrMap.get_set_self _ _ _, rfl, fun k' hk' => StrMap.get_set_ne _ _ _ _ hk'⟩, ?_⟩
  rw [parseParagraph_eq, scanLines_field a r _ _ _ ha hr hcolon hcomment hspace]
  have := scanLines_line [] rest
    { Values := StrMap.set [] (Trim a noop) (Trim (r ++ ['\n']) noop),
      Order := [] ++ [Trim a noop] } (Trim a noop) (by simp)
  simpa [StrMap.set] using this

theorem parseParagraph_field_line_witness :
    (∃ ret' : Paragraph,
      scanLines ("Homepage".toList ++ ':' :: " http://x".toList ++ '\n' :: []) ⟨[], []⟩ [] =
        scanLines [] ret' (Trim "Homepage".toList noop) ∧
      ret'.Values.get (Trim "Homepage".toList noop) = Trim (" http://x".toList ++ ['\n']) noop ∧
      ret'.Order = [] ++ [Trim "Homepage".toList noop] ∧
      ∀ k', k' ≠ Trim "Homepage".toList noop → ret'.Values.get k' = StrMap.get [] k') ∧
    parseParagraph ("Homepage".toList ++ ':' :: " http://x".toList ++ '\n' :: '\n' :: []) =
      (some { Values := [(Trim "Homepage".toList noop, Trim (" http://x".toList ++ ['\n']) noop)],
              Order := [Trim "Homepage".toList noop] },
        none, []) :=
  parseParagraph_field_line "Homepage".toList " http://x".toList [] ⟨[], []⟩ []
    (by decide) (by decide) (by decide) (by decide) (by decide)

/-- C13. Continuation lines: for every state of the loop of `parseParagraph`,
with `key` the most recently set key, a line that begins with a space and is
not a comment appends a newline followed by the remainder of the line (first
space stripped, then trimmed at both ends) to `Values[key]`; `Order` and the
values of all other keys are unchanged, and `key` stays the current key. -/
theorem parseParagraph_continuation_line (r rest : Str) (ret : Paragraph) (key : Str)
    (hr : '\n' ∉ r) (hcomment : ¬ isComment (' ' :: r ++ ['\n'])) :
    ∃ ret' : Paragraph,
      scanLines (' ' :: r ++ '\n' :: rest) ret key = scanLines rest ret' key ∧
      ret'.Values.get key = ret.Values.get key ++ '\n' :: Trim (r ++ ['\n']) noop ∧
      ret'.Order = ret.Order ∧
      ∀ k', k' ≠ key → ret'.Values.get k' = ret.Values.get k' := by
  refine ⟨_, scanLines_continuation r rest ret key hr hcomment, ?_, rfl,
    fun k' hk' => StrMap.get_set_ne _ _ _ _ hk'⟩
  simp only
  rw [StrMap.get_set_self, Trim_append_mem _ _ '\n' (by decide)]

theorem parseParagraph_continuation_line_witness :
    parseParagraph "Key: first\n value\n\n".toList =
        (some ⟨[("Key".toList, "first\nvalue".toList)], ["Key".toList]⟩, none, []) ∧
      ∃ ret' : Paragraph,
        scanLines (' ' :: "value".toList ++ '\n' :: "\n".toList)
            ⟨[("Key".toList, "first".toList)], ["Key".toList]⟩ "Key".toList =
          scanLines "\n".toList ret' "Key".toList ∧
        ret'.Values.get "Key".toList =
          StrMap.get [("Key".toList, "first".toList)] "Key".toList ++
            '\n' :: Trim ("value".toList ++ ['\n']) noop ∧
        ret'.Order = ["Key".toList] ∧
        ∀ k', k' ≠ "Key".toList →
          ret'.Values.get k' = StrMap.get [("Key".toList, "first".toList)] k' :=
  ⟨by decide, parseParagraph_continuation_line "value".toList "\n".toList
    ⟨[("Key".toList, "first".toList)], ["Key".toList]⟩ "Key".toList (by decide) (by decide)⟩


/-! ## A block with repeated keys -/

theorem SplitN2_eq (s : Str) (h : ':' ∈ s) :
    SplitN2 s ':' =
      [s.takeWhile (fun c => decide (c ≠ ':')), (s.dropWhile (fun c => decide (c ≠ ':'))).tail] := by
  obtain ⟨a, b, hs, ha, rfl⟩ := SplitN2_mem s h
  have hspan := span_append_stop (fun c => decide (c ≠ ':')) a ':' b (fun x hx => by
    have : x ≠ ':' := fun e => ha (e ▸ hx)
    simpa using this) (by simp)
  rw [List.span_eq_take_drop] at hspan
  simp only [Prod.mk.injEq] at hspan
  rw [hs, hspan.1, hspan.2]
  rfl

/-- One step of `runLines` on a line of a block. -/
theorem runLines_cons (b : Str) (bs : List Str) (ret : Paragraph) (key : Str)
    (hb : blockLine b) :
    runLines (b :: bs) ret key =
      if isComment (b ++ ['\n']) then runLines bs ret key
      else if isContinuationLine (b ++ ['\n']) then
        runLines bs
          { ret with Values := ret.Values.set key (ret.Values.get key ++ '\n' :: Trim (b ++ ['\n']).tail noop) }
          key
      else
        runLines bs
          { Values := ret.Values.set (fieldKey (b ++ ['\n'])) (fieldValue (b ++ ['\n'])),
            Order := ret.Order ++ [fieldKey (b ++ ['\n'])] }
          (fieldKey (b ++ ['\n'])) := by
  obtain ⟨_, hne, hacc⟩ := hb
  conv => lhs; unfold runLines
  rw [if_neg hne]
  by_cases c2 : isComment (b ++ ['\n'])
  · rw [if_pos c2, if_pos (show (TrimLeft (b ++ ['\n']) noop).head? = some '#' from c2)]
  · rw [if_neg c2, if_neg (show ¬ (TrimLeft (b ++ ['\n']) noop).head? = some '#' from c2)]
    by_cases c3 : (b ++ ['\n']).head? = some ' '
    · rw [if_pos c3, if_pos (show isContinuationLine (b ++ ['\n']) from ⟨c2, c3⟩)]
    · rw [if_neg c3, if_neg (show ¬ isContinuationLine (b ++ ['\n']) from fun h => c3 h.2)]
      have hc : ':' ∈ b ++ ['\n'] := by
        rcases hacc with h1 | h2 | h3 | h4
        · exact absurd h1 hne
        · exact absurd h2 c2
        · exact absurd h3 c3
        · exact h4
      rw [SplitN2_eq _ hc]
      rfl

theorem isFieldLine_iff (b : Str) (hb : blockLine b) :
    isFieldLine (b ++ ['\n']) ↔ ¬ isComment (b ++ ['\n']) ∧ ¬ isContinuationLine (b ++ ['\n']) := by
  obtain ⟨_, hne, hacc⟩ := hb
  constructor
  · rintro ⟨_, h2, h3, _⟩
    exact ⟨h2, fun h => h3 h.2⟩
  · rintro ⟨h2, h3⟩
    have c3 : (b ++ ['\n']).head? ≠ some ' ' := fun h => h3 ⟨h2, h⟩
    refine ⟨hne, h2, c3, ?_⟩
    rcases hacc with h1 | h | h | h4
    · exact absurd h1 hne
    · exact absurd h h2
    · exact absurd h c3
    · exact h4

/-- The lines of a block are all taken, and `Order` grows by the keys of the
field lines, one entry per field line, in input order. -/
theorem runLines_block (bs : List Str) :
    ∀ (ret : Paragraph) (key : Str), (∀ b ∈ bs, blockLine b) →
      ∃ (ret' : Paragraph) (key' : Str), runLines bs ret key = BlockEnd.running ret' key' ∧
        ret'.Order = ret.Order ++
          (bs.filter (fun b => decide (isFieldLine (b ++ ['\n'])))).map
            (fun b => fieldKey (b ++ ['\n'])) := by
  induction bs with
  | nil => intro ret key _; exact ⟨ret, key, rfl, by simp⟩
  | cons b bs ih =>
    intro ret key h
    have hb := h b (by simp)
    have hbs : ∀ x ∈ bs, blockLine x := fun x hx => h x (by simp [hx])
    rw [runLines_cons b bs ret key hb]
    by_cases c2 : isComment (b ++ ['\n'])
    · rw [if_pos c2]
      obtain ⟨ret', key', h1, h2⟩ := ih ret key hbs
      have hnf : ¬ isFieldLine (b ++ ['\n']) := fun hf => ((isFieldLine_iff b hb).1 hf).1 c2
      exact ⟨ret', key', h1, by rw [h2]; simp [hnf]⟩
    · rw [if_neg c2]
      by_cases c3 : isContinuationLine (b ++ ['\n'])
      · rw [if_pos c3]
        obtain ⟨ret', key', h1, h2⟩ := ih _ key hbs
        have hnf : ¬ isFieldLine (b ++ ['\n']) := fun hf => ((isFieldLine_iff b hb).1 hf).2 c3
        exact ⟨ret', key', h1, by rw [h2]; simp [hnf]⟩
      · rw [if_neg c3]
        obtain ⟨ret', key', h1, h2⟩ := ih _ _ hbs
        have hf : isFieldLine (b ++ ['\n']) := (isFieldLine_iff b hb).2 ⟨c2, c3⟩
        exact ⟨ret', key', h1, by rw [h2]; simp [hf]⟩

/-- While the current key is not `k` and no field line has the key `k`, the
value of `k` is left alone. -/
theorem runLines_other_key (k : Str) (bs : List Str) :
    ∀ (ret : Paragraph) (key : Str) (ret' : Paragraph) (key' : Str),
      (∀ b ∈ bs, blockLine b) → key ≠ k →
      (∀ b ∈ bs, isFieldLine (b ++ ['\n']) → fieldKey (b ++ ['\n']) ≠ k) →
      runLines bs ret key = BlockEnd.running ret' key' →
      ret'.Values.get k = ret.Values.get k := by
  induction bs with
  | nil =>
    intro ret key ret' key' _ _ _ h
    simp only [runLines, BlockEnd.running.injEq] at h
    rw [← h.1]
  | cons b bs ih =>
    intro ret key ret' key' h hkey hno hrun
    have hb := h b (by simp)
    have hbs : ∀ x ∈ bs, blockLine x := fun x hx => h x (by simp [hx])
    have hno' : ∀ x ∈ bs, isFieldLine (x ++ ['\n']) → fieldKey (x ++ ['\n']) ≠ k :=
      fun x hx => hno x (by simp [hx])
    rw [runLines_cons b bs ret key hb] at hrun
    by_cases c2 : isComment (b ++ ['\n'])
    · rw [if_pos c2] at hrun
      exact ih _ _ _ _ hbs hkey hno' hrun
    · rw [if_neg c2] at hrun
      by_cases c3 : isContinuationLine (b ++ ['\n'])
      · rw [if_pos c3] at hrun
        rw [ih _ _ _ _ hbs hkey hno' hrun]
        exact StrMap.get_set_ne _ _ _ _ (Ne.symm hkey)
      · rw [if_neg c3] at hrun
        have hf : isFieldLine (b ++ ['\n']) := (isFieldLine_iff b hb).2 ⟨c2, c3⟩
        have hk := hno b (by simp) hf
        rw [ih _ _ _ _ hbs hk hno' hrun]
        exact StrMap.get_set_ne _ _ _ _ (Ne.symm hk)

/-- While the current key is `k` and no field line has the key `k`, the value
of `k` grows by the continuation lines up to the next field line. -/
theorem runLines_current_key (k : Str) (bs : List Str) :
    ∀ (ret : Paragraph) (ret' : Paragraph) (key' : Str),
      (∀ b ∈ bs, blockLine b) →
      (∀ b ∈ bs, isFieldLine (b ++ ['\n']) → fieldKey (b ++ ['\n']) ≠ k) →
      runLines bs ret k = BlockEnd.running ret' key' →
      ret'.Values.get k = ret.Values.get k ++ continuationText bs := by
  induction bs with
  | nil =>
    intro ret ret' key' _ _ h
    simp only [runLines, BlockEnd.running.injEq] at h
    rw [← h.1]
    simp [continuationText]
  | cons b bs ih =>
    intro ret ret' key' h hno hrun
    have hb := h b (by simp)
    have hbs : ∀ x ∈ bs, blockLine x := fun x hx => h x (by simp [hx])
    have hno' : ∀ x ∈ bs, isFieldLine (x ++ ['\n']) → fieldKey (x ++ ['\n']) ≠ k :=
      fun x hx => hno x (by simp [hx])
    rw [runLines_cons b bs ret k hb] at hrun
    by_cases c2 : isComment (b ++ ['\n'])
    · rw [if_pos c2] at hrun
      have hnf : ¬ isFieldLine (b ++ ['\n']) := fun hf => ((isFieldLine_iff b hb).1 hf).1 c2
      have hnc : ¬ isContinuationLine (b ++ ['\n']) := fun hc => hc.1 c2
      rw [ih _ _ _ hbs hno' hrun]
      simp [continuationText, hnf, hnc]
    · rw [if_neg c2] at hrun
      by_cases c3 : isContinuationLine (b ++ ['\n'])
      · rw [if_pos c3] at hrun
        have hnf : ¬ isFieldLine (b ++ ['\n']) := fun hf => ((isFieldLine_iff b hb).1 hf).2 c3
        rw [ih _ _ _ hbs hno' hrun]
        simp only
        rw [StrMap.get_set_self]
        simp [continuationText, hnf, c3]
      · rw [if_neg c3] at hrun
        have hf : isFieldLine (b ++ ['\n']) := (isFieldLine_iff b hb).2 ⟨c2, c3⟩
        have hk := hno b (by simp) hf
        rw [runLines_other_key k bs _ _ _ _ hbs hk hno' hrun]
        simp only
        rw [StrMap.get_set_ne _ _ _ _ (Ne.symm hk)]
        simp [continuationText, hf]

theorem runLines_append (xs ys : List Str) :
    ∀ (ret : Paragraph) (key : Str) (ret' : Paragraph) (key' : Str),
      runLines xs ret key = BlockEnd.running ret' key' →
      runLines (xs ++ ys) ret key = runLines ys ret' key' := by
  induction xs with
  | nil =>
    intro ret key ret' key' h
    simp only [runLines, BlockEnd.running.injEq] at h
    rw [List.nil_append, h.1, h.2]
  | cons x xs ih =>
    intro ret key ret' key' h
    rw [List.cons_append]
    unfold runLines at h
    conv => lhs; unfold runLines
    split at h
    · simp at h
    · rename_i c1
      rw [if_neg c1]
      split at h
      · rename_i c2
        rw [if_pos c2]; exact ih _ _ _ _ h
      · rename_i c2
        rw [if_neg c2]
        split at h
        · rename_i c3
          rw [if_pos c3]; exact ih _ _ _ _ h
        · rename_i c3
          rw [if_neg c3]
          split at h
          · exact ih _ _ _ _ h
          · simp at h


/-- C11. Duplicate keys overwrite the value but are kept in the order: for
every block of complete lines (comments, continuation lines and field lines)
closed by a blank line or by the end of the text, `parseParagraph` returns a
paragraph whose `Order` lists the trimmed key of every field line in input
order, one entry per occurrence; and for a field line `f` after which no field
line has the same key, `Values` maps the key of `f` to the value of `f`
followed by its continuation lines. -/
theorem parseParagraph_duplicate_keys (pre : List Str) (f : Str) (after : List Str)
    (rest t : Str)
    (hblock : ∀ b ∈ pre ++ f :: after, blockLine b)
    (hf : isFieldLine (f ++ ['\n']))
    (hlast : ∀ b ∈ after, isFieldLine (b ++ ['\n']) →
      fieldKey (b ++ ['\n']) ≠ fieldKey (f ++ ['\n']))
    (ht : '\n' ∉ t) :
    ∃ p : Paragraph,
      parseParagraph (linesText (pre ++ f :: after) ++ '\n' :: rest) = (some p, none, rest) ∧
      parseParagraph (linesText (pre ++ f :: after) ++ t) = (some p, some GoError.EOF, []) ∧
      p.Order = ((pre ++ f :: after).filter (fun b => decide (isFieldLine (b ++ ['\n'])))).map
        (fun b => fieldKey (b ++ ['\n'])) ∧
      p.Values.get (fieldKey (f ++ ['\n'])) = fieldValue (f ++ ['\n']) ++ continuationText after := by
  obtain ⟨ret', key', hrun, hord⟩ :=
    runLines_block (pre ++ f :: after) { Values := [], Order := [] } [] hblock
  have hnl : ∀ b ∈ pre ++ f :: after, '\n' ∉ b := fun b hb => (hblock b hb).1
  simp only [List.nil_append] at hord
  refine ⟨ret', ?_, ?_, hord, ?_⟩
  · rw [parseParagraph_eq, scanLines_runLines _ _ _ _ hnl, hrun]
    have := scanLines_line [] rest ret' key' (by simp)
    simpa using this
  · rw [parseParagraph_eq, scanLines_runLines _ _ _ _ hnl, hrun]
    simp only
    rw [scanLines_eof t _ _ ht, hord]
    have : ¬ (((pre ++ f :: after).filter (fun b => decide (isFieldLine (b ++ ['\n'])))).map
        (fun b => fieldKey (b ++ ['\n']))).length = 0 := by
      simp [List.filter_cons, hf]
    rw [if_neg this]
  · obtain ⟨r1, k1, hpre, _⟩ := runLines_block pre { Values := [], Order := [] } []
      (fun b hb => hblock b (by simp [hb]))
    have hfb : blockLine f := hblock f (by simp)
    have hafter : ∀ b ∈ after, blockLine b := fun b hb => hblock b (by simp [hb])
    have hrun' := hrun
    rw [runLines_append pre (f :: after) _ _ _ _ hpre, runLines_cons f after r1 k1 hfb,
      if_neg ((isFieldLine_iff f hfb).1 hf).1, if_neg ((isFieldLine_iff f hfb).1 hf).2] at hrun'
    rw [runLines_current_key _ after _ _ _ hafter hlast hrun']
    simp only
    rw [StrMap.get_set_self]

theorem parseParagraph_duplicate_keys_witness :
    ∃ p : Paragraph,
      parseParagraph (linesText (["Key: a".toList, " x".toList] ++ "Key: b".toList ::
          [" y".toList, "# note".toList, " z".toList, "Other: c".toList, " w".toList]) ++
          '\n' :: []) = (some p, none, []) ∧
      parseParagraph (linesText (["Key: a".toList, " x".toList] ++ "Key: b".toList ::
          [" y".toList, "# note".toList, " z".toList, "Other: c".toList, " w".toList]) ++
          "tail".toList) = (some p, some GoError.EOF, []) ∧
      p.Order = ((["Key: a".toList, " x".toList] ++ "Key: b".toList ::
          [" y".toList, "# note".toList, " z".toList, "Other: c".toList, " w".toList]).filter
            (fun b => decide (isFieldLine (b ++ ['\n'])))).map
        (fun b => fieldKey (b ++ ['\n'])) ∧
      p.Values.get (fieldKey ("Key: b".toList ++ ['\n'])) =
        fieldValue ("Key: b".toList ++ ['\n']) ++
          continuationText [" y".toList, "# note".toList, " z".toList, "Other: c".toList,
            " w".toList] :=
  parseParagraph_duplicate_keys ["Key: a".toList, " x".toList] "Key: b".toList
    [" y".toList, "# note".toList, " z".toList, "Other: c".toList, " w".toList] [] "tail".toList
    (by decide) (by decide) (by decide) (by decide)

theorem parseParagraph_duplicate_keys_example :
    parseParagraph "Key: a\nKey: b\n\n".toList =
        (some ⟨[("Key".toList, "b".toList)], ["Key".toList, "Key".toList]⟩, none, []) ∧
      fieldValue ("Key: b".toList ++ ['\n']) ++
          continuationText [" y".toList, "# note".toList, " z".toList, "Other: c".toList,
            " w".toList] = "b\ny\nz".toList ∧
      ((["Key: a".toList, " x".toList] ++ "Key: b".toList ::
          [" y".toList, "# note".toList, " z".toList, "Other: c".toList, " w".toList]).filter
            (fun b => decide (isFieldLine (b ++ ['\n'])))).map
        (fun b => fieldKey (b ++ ['\n'])) = ["Key".toList, "Key".toList, "Other".toList] := by
  decide


/-! ## The escaper on three newlines -/

/-- C15 fails on the code: on `"a\n\n\nb"` the second replacement of
`dotEncodeValue` resumes after the first match, so the second empty
continuation is not dot-stuffed and the result contains `"\n \n"`. -/
theorem dotEncodeValue_three_newlines :
    Replace "a\n\n\nb".toList ['\n'] ['\n', ' '] = "a\n \n \n b".toList ∧
      dotEncodeValue "a\n\n\nb".toList = "a\n .\n \n b".toList ∧
      ['\n', ' ', '\n'] <:+: dotEncodeValue "a\n\n\nb".toList := by
  decide

/-! ## Rendering the fields of a record -/

/-- The loop of `marshalStruct` when every field that is not skipped renders
without error: the text described by `referenceText` is appended. -/
theorem marshalStructLoop_referenceText (addressable : Bool)
    (fields : List (StructField × Value)) :
    ∀ (ret : Str),
      (∀ fv ∈ fields, ¬ skipped fv.1 →
        ∃ v, marshalStructValue addressable fv.1 fv.2 = Outcome.ret (v, none)) →
      marshalStructLoop addressable fields ret =
        Outcome.ret (ret ++ referenceText addressable fields, none) := by
  induction fields with
  | nil => intro ret _; simp [marshalStructLoop, referenceText]
  | cons fv fields ih =>
    intro ret h
    obtain ⟨ft, val⟩ := fv
    have hrest : ∀ fv ∈ fields, ¬ skipped fv.1 →
        ∃ v, marshalStructValue addressable fv.1 fv.2 = Outcome.ret (v, none) :=
      fun x hx => h x (by simp [hx])
    have hcons : ∀ piece, referenceLine addressable (ft, val) = piece →
        referenceText addressable ((ft, val) :: fields) =
          piece ++ referenceText addressable fields := by
      intro piece hp
      unfold referenceText
      rw [List.flatMap_cons, hp]
    unfold marshalStructLoop
    by_cases hs : skipped ft
    · rw [if_pos (show paragraphKey ft = ['-'] ∨ ft.Anonymous = true from hs), ih ret hrest,
        hcons [] (by simp [referenceLine, hs])]
      rfl
    · obtain ⟨v, hv⟩ := h (ft, val) (by simp) hs
      simp only at hv
      rw [if_neg (show ¬ (paragraphKey ft = ['-'] ∨ ft.Anonymous = true) from hs), hv]
      simp only
      by_cases he : dotEncodeValue v = []
      · rw [if_neg (by simpa using he), ih ret hrest, hcons [] (by simp [referenceLine, hs, hv, he])]
        rfl
      · rw [if_pos he, ih _ hrest,
          hcons (paragraphKey ft ++ [':', ' '] ++ dotEncodeValue v ++ ['\n'])
            (by simp [referenceLine, hs, hv, he])]
        simp

/-- The loop of `marshalStruct` stops at the first field that returns an
error, and returns that error with the empty text. -/
theorem marshalStructLoop_error (addressable : Bool) (pre : List (StructField × Value)) :
    ∀ (ret : Str) (fieldType : StructField) (field : Value) (post : List (StructField × Value))
      (partialText : Str) (err : GoError),
      (∀ fv ∈ pre, ¬ skipped fv.1 →
        ∃ v, marshalStructValue addressable fv.1 fv.2 = Outcome.ret (v, none)) →
      ¬ skipped fieldType →
      marshalStructValue addressable fieldType field = Outcome.ret (partialText, some err) →
      marshalStructLoop addressable (pre ++ (fieldType, field) :: post) ret =
        Outcome.ret ([], some err) := by
  induction pre with
  | nil =>
    intro ret fieldType field post partialText err _ hs hv
    rw [List.nil_append]
    unfold marshalStructLoop
    rw [if_neg (show ¬ (paragraphKey fieldType = ['-'] ∨ fieldType.Anonymous = true) from hs), hv]
  | cons fv pre ih =>
    intro ret fieldType field post partialText err h hs hv
    obtain ⟨ft, val⟩ := fv
    have hrest : ∀ fv ∈ pre, ¬ skipped fv.1 →
        ∃ v, marshalStructValue addressable fv.1 fv.2 = Outcome.ret (v, none) :=
      fun x hx => h x (by simp [hx])
    rw [List.cons_append]
    unfold marshalStructLoop
    by_cases hs' : skipped ft
    · rw [if_pos (show paragraphKey ft = ['-'] ∨ ft.Anonymous = true from hs')]
      exact ih ret _ _ _ _ _ hrest hs hv
    · obtain ⟨v, hv'⟩ := h (ft, val) (by simp) hs'
      simp only at hv'
      rw [if_neg (show ¬ (paragraphKey ft = ['-'] ∨ ft.Anonymous = true) from hs'), hv']
      simp only
      split
      · exact ih _ _ _ _ _ _ hrest hs hv
      · exact ih _ _ _ _ _ _ hrest hs hv


/-- C16. Record rendering equals its reference definition: when every field
that is not skipped renders without error, `marshalStruct` returns the text of
`referenceText` (the lines `key: escaped value` of the fields that are not
skipped and whose escaped value is not empty, in declared order, with nothing
between them); and when the first field that does not render returns an error,
`marshalStruct` returns that error with the empty text. -/
theorem marshalStruct_reference (addressable : Bool)
    (marshalControl : Option (Str × Option GoError)) (fields : List (StructField × Value)) :
    ((∀ fv ∈ fields, ¬ skipped fv.1 →
        ∃ v, marshalStructValue addressable fv.1 fv.2 = Outcome.ret (v, none)) →
      marshalStruct addressable (Value.Struct marshalControl fields) =
        Outcome.ret (referenceText addressable fields, none)) ∧
    (∀ (pre : List (StructField × Value)) (fieldType : StructField) (field : Value)
        (post : List (StructField × Value)) (partialText : Str) (err : GoError),
      fields = pre ++ (fieldType, field) :: post →
      (∀ fv ∈ pre, ¬ skipped fv.1 →
        ∃ v, marshalStructValue addressable fv.1 fv.2 = Outcome.ret (v, none)) →
      ¬ skipped fieldType →
      marshalStructValue addressable fieldType field = Outcome.ret (partialText, some err) →
      marshalStruct addressable (Value.Struct marshalControl fields) =
        Outcome.ret ([], some err)) := by
  constructor
  · intro h
    have := marshalStructLoop_referenceText addressable fields [] h
    simpa [marshalStruct] using this
  · intro pre fieldType field post partialText err hf hpre hs hv
    subst hf
    exact marshalStructLoop_error addressable pre [] fieldType field post partialText err hpre hs hv

theorem marshalStruct_reference_witness :
    marshalStruct true (Value.Struct none
        [(⟨"Name".toList, "Package".toList, [], false⟩, Value.String "hello".toList),
         (⟨"Hidden".toList, "-".toList, [], false⟩, Value.Other "chan int".toList),
         (⟨"Empty".toList, [], [], false⟩, Value.String []),
         (⟨"Text".toList, [], [], false⟩, Value.String "a\n\nb".toList)]) =
      Outcome.ret ("Package: hello\nText: a\n .\n b\n".toList, none) ∧
    marshalStruct true (Value.Struct none
        [(⟨"Name".toList, [], [], false⟩, Value.String "hello".toList),
         (⟨"Bad".toList, [], [], false⟩, Value.Other "chan int".toList),
         (⟨"Size".toList, [], [], false⟩, Value.Int 3)]) =
      Outcome.ret ([], some (GoError.Errorf "Unknown type of field: %s".toList
        "chan int".toList)) :=
  ⟨(marshalStruct_reference true none _).1 (by
      intro fv hfv hns
      simp only [List.mem_cons, List.mem_singleton, List.not_mem_nil, or_false] at hfv
      rcases hfv with rfl | rfl | rfl | rfl
      · exact ⟨_, rfl⟩
      · exact absurd (by decide) hns
      · exact ⟨_, rfl⟩
      · exact ⟨_, rfl⟩),
    (marshalStruct_reference true none _).2
      [(⟨"Name".toList, [], [], false⟩, Value.String "hello".toList)]
      ⟨"Bad".toList, [], [], false⟩ (Value.Other "chan int".toList)
      [(⟨"Size".toList, [], [], false⟩, Value.Int 3)] [] _ rfl
      (by
        intro fv hfv _
        simp only [List.mem_singleton] at hfv
        subst hfv
        exact ⟨_, rfl⟩)
      (by decide) rfl⟩

/-! ## Pointers -/

/-- C17 fails as stated: a record whose field is a pointer to the non-empty
string `"s"` does not render; `marshalStructValue` has no case for pointers
and returns the error `Unknown type of field`, while the same field holding
the string itself renders to `Name: s`. -/
theorem Marshal_pointer_field_fails :
    Marshal (Value.Ptr "*T".toList (Value.Struct none
        [(⟨"Name".toList, [], [], false⟩, Value.Ptr "*string".toList (Value.String "s".toList))])) =
      Outcome.ret ([], some (GoError.Errorf "Unknown type of field: %s".toList
        "*string".toList)) ∧
    Marshal (Value.Ptr "*T".toList (Value.Struct none
        [(⟨"Name".toList, [], [], false⟩, Value.String "s".toList)])) =
      Outcome.ret ("Name: s\n".toList, none) := by
  decide

/-- C17, amended. A field that is a pointer is not followed: for every record
with a field that is not skipped and is a pointer to a value whose pointer
type does not implement `Marshalable` (for example a pointer to a non-empty
string), `marshalStructValue` returns the error `Unknown type of field` naming
the pointer type, and when the fields before it render, rendering the record
returns that error with the empty text and no line for the field. -/
theorem Marshal_pointer_field (byPointer : Bool) (typeString : Str)
    (marshalControl : Option (Str × Option GoError)) (pre : List (StructField × Value))
    (fieldType : StructField) (pointerType : Str) (elem : Value)
    (post : List (StructField × Value))
    (hs : ¬ skipped fieldType)
    (_ : implementsMarshalable elem = false)
    (hpre : ∀ fv ∈ pre, ¬ skipped fv.1 →
      ∃ v, marshalStructValue byPointer fv.1 fv.2 = Outcome.ret (v, none)) :
    marshalStructValue byPointer fieldType (Value.Ptr pointerType elem) =
      Outcome.ret ([], some (GoError.Errorf "Unknown type of field: %s".toList pointerType)) ∧
    Marshal (recordValue byPointer typeString marshalControl
        (pre ++ (fieldType, Value.Ptr pointerType elem) :: post)) =
      Outcome.ret ([], some (GoError.Errorf "Unknown type of field: %s".toList pointerType)) := by
  have hv : marshalStructValue byPointer fieldType (Value.Ptr pointerType elem) =
      Outcome.ret ([], some (GoError.Errorf "Unknown type of field: %s".toList pointerType)) := by
    simp [marshalStructValue]
  refine ⟨hv, ?_⟩
  rw [Marshal_recordValue]
  exact marshalStructLoop_error byPointer pre [] fieldType _ post [] _ hpre hs hv

theorem Marshal_pointer_field_witness :
    marshalStructValue true ⟨"Name".toList, [], [], false⟩
        (Value.Ptr "*string".toList (Value.String "s".toList)) =
      Outcome.ret ([], some (GoError.Errorf "Unknown type of field: %s".toList
        "*string".toList)) ∧
    Marshal (recordValue true "*T".toList none
        ([(⟨"Id".toList, [], [], false⟩, Value.Int 7)] ++
          (⟨"Name".toList, [], [], false⟩,
            Value.Ptr "*string".toList (Value.String "s".toList)) :: [])) =
      Outcome.ret ([], some (GoError.Errorf "Unknown type of field: %s".toList
        "*string".toList)) :=
  Marshal_pointer_field true "*T".toList none [(⟨"Id".toList, [], [], false⟩, Value.Int 7)]
    ⟨"Name".toList, [], [], false⟩ "*string".toList (Value.String "s".toList) []
    (by decide) rfl
    (by
      intro fv hfv _
      simp only [List.mem_singleton] at hfv
      subst hfv
      exact ⟨_, rfl⟩)

/-! ## Rendering a value by kind -/

/-- The loop of `marshalStructValueSlice` on elements that all render. -/
theorem marshalStructValueSliceLoop_rendered (fieldType : StructField) (elems : List Value)
    (rendered : List Str)
    (h : List.Forall₂ (fun e r => marshalStructValue true fieldType e = Outcome.ret (r, none))
      elems rendered) :
    marshalStructValueSliceLoop fieldType elems = Outcome.ret (rendered, none) := by
  induction h with
  | nil => simp [marshalStructValueSliceLoop]
  | cons hhead _ ih =>
    rw [marshalStructValueSliceLoop, hhead]
    simp only
    rw [ih]

/-- The loop of `marshalStructValueSlice` stops at the first element that
returns an error. -/
theorem marshalStructValueSliceLoop_error (fieldType : StructField) (pre : List Value) :
    ∀ (elem : Value) (post : List Value) (partialText : Str) (err : GoError),
      (∀ e ∈ pre, ∃ r, marshalStructValue true fieldType e = Outcome.ret (r, none)) →
      marshalStructValue true fieldType elem = Outcome.ret (partialText, some err) →
      ∃ partialList, marshalStructValueSliceLoop fieldType (pre ++ elem :: post) =
        Outcome.ret (partialList, some err) := by
  induction pre with
  | nil =>
    intro elem post partialText err _ hv
    rw [List.nil_append, marshalStructValueSliceLoop, hv]
    exact ⟨_, rfl⟩
  | cons e pre ih =>
    intro elem post partialText err h hv
    obtain ⟨r, hr⟩ := h e (by simp)
    obtain ⟨pl, hpl⟩ := ih elem post partialText err (fun x hx => h x (by simp [hx])) hv
    rw [List.cons_append, marshalStructValueSliceLoop, hr]
    simp only
    rw [hpl]
    exact ⟨_, rfl⟩

/-- What `marshalStructValue` returns for the kinds it renders, for values
reached through exported fields: a string verbatim, an int through `Itoa`, a
sequence whose elements render as their renderings joined by the delimiter of
the field, the empty sequence as the empty text, a sequence with an element
that returns an error as that error, and an addressable struct through its
`MarshalControl`, or as an error when it has none. -/
theorem marshalStructValue_by_kind (addressable : Bool) (fieldType : StructField) :
    (∀ s, marshalStructValue addressable fieldType (Value.String s) = Outcome.ret (s, none)) ∧
    (∀ i, marshalStructValue addressable fieldType (Value.Int i) = Outcome.ret (Itoa i, none)) ∧
    marshalStructValue addressable fieldType (Value.Slice []) = Outcome.ret ([], none) ∧
    (∀ elems rendered,
      List.Forall₂ (fun e r => marshalStructValue true fieldType e = Outcome.ret (r, none))
        elems rendered →
      marshalStructValue addressable fieldType (Value.Slice elems) =
        Outcome.ret (Join rendered (fieldDelim fieldType), none)) ∧
    (∀ pre elem post partialText err,
      (∀ e ∈ pre, ∃ r, marshalStructValue true fieldType e = Outcome.ret (r, none)) →
      marshalStructValue true fieldType elem = Outcome.ret (partialText, some err) →
      marshalStructValue addressable fieldType (Value.Slice (pre ++ elem :: post)) =
        Outcome.ret ([], some err)) ∧
    (∀ result fields, marshalStructValue true fieldType (Value.Struct (some result) fields) =
      Outcome.ret result) ∧
    (∀ fields, marshalStructValue true fieldType (Value.Struct none fields) =
      Outcome.ret ([], some (GoError.Errorf
        "%s doesn't implement the Marshalable interface".toList []))) := by
  refine ⟨fun s => by simp [marshalStructValue], fun i => by simp [marshalStructValue],
    by simp [marshalStructValue, marshalStructValueSliceLoop, Join, List.intercalate], ?_, ?_,
    fun result fields => by simp [marshalStructValue, marshalStructValueStruct],
    fun fields => by simp [marshalStructValue, marshalStructValueStruct]⟩
  · intro elems rendered h
    rw [marshalStructValue, marshalStructValueSliceLoop_rendered fieldType elems rendered h]
    rfl
  · intro pre elem post partialText err hpre hv
    obtain ⟨pl, hpl⟩ := marshalStructValueSliceLoop_error fieldType pre elem post partialText err
      hpre hv
    rw [marshalStructValue, hpl]

/-- C18 fails on the code for a nested struct that cannot be addressed: the
fields of a record handed to `Marshal` by value are not addressable, and
`marshalStructValueStruct` calls `Addr` on the field, which panics, whether
or not the struct has the custom render capability; the same record handed
over through a pointer gets the error the claim describes. -/
theorem marshalStructValue_nested_struct_panics :
    (∀ fieldType marshalControl fields,
      marshalStructValue false fieldType (Value.Struct marshalControl fields) = Outcome.panic) ∧
    Marshal (Value.Struct none
        [(⟨"Inner".toList, [], [], false⟩, Value.Struct none [])]) = Outcome.panic ∧
    Marshal (Value.Ptr "*Outer".toList (Value.Struct none
        [(⟨"Inner".toList, [], [], false⟩, Value.Struct none [])])) =
      Outcome.ret ([], some (GoError.Errorf
        "%s doesn't implement the Marshalable interface".toList [])) := by
  refine ⟨fun fieldType marshalControl fields => by
    simp [marshalStructValue, marshalStructValueStruct], by decide, by decide⟩


/-! ## The restricted round trip -/

theorem dropWhile_congr_mem {α : Type} (p q : α → Bool) (l : List α)
    (h : ∀ x ∈ l, p x = q x) : l.dropWhile p = l.dropWhile q := by
  induction l with
  | nil => rfl
  | cons x xs ih =>
    have hx := h x (by simp)
    have ih' := ih (fun y hy => h y (by simp [hy]))
    rw [List.dropWhile_cons, List.dropWhile_cons, hx, ih']

/-- On a text without a newline, trimming the cutset of the scanner is
trimming space, tab and CR. -/
theorem Trim_noop_eq (l : Str) (h : '\n' ∉ l) : Trim l noop = Trim l [' ', '\t', '\r'] := by
  have hpq : ∀ x : Char, x ≠ '\n' →
      decide (x ∈ noop) = decide (x ∈ [' ', '\t', '\r']) := by
    intro x hx
    simp only [noop, List.mem_cons, List.mem_singleton, List.not_mem_nil, or_false,
      decide_eq_decide]
    constructor
    · rintro (h1 | h1 | h1 | h1)
      · exact Or.inl h1
      · exact absurd h1 hx
      · exact Or.inr (Or.inr h1)
      · exact Or.inr (Or.inl h1)
    · rintro (h1 | h1 | h1)
      · exact Or.inl h1
      · exact Or.inr (Or.inr (Or.inr h1))
      · exact Or.inr (Or.inr (Or.inl h1))
  have hleft : TrimLeft l noop = TrimLeft l [' ', '\t', '\r'] :=
    dropWhile_congr_mem _ _ l (fun x hx => hpq x (fun e => h (e ▸ hx)))
  unfold Trim
  rw [hleft]
  unfold TrimRight
  rw [dropWhile_congr_mem (fun c => decide (c ∈ noop)) (fun c => decide (c ∈ [' ', '\t', '\r']))]
  intro x hx
  apply hpq
  intro e
  apply h
  rw [List.mem_reverse] at hx
  have : x ∈ l := (List.dropWhile_sublist _).subset hx
  exact e ▸ this

/-- C19. Restricted escape/parse round trip: for every key `k` without colon
or newline, without leading or trailing space, tab or CR and not starting with
`#`, and every value `v` without `"\n\n"` whose lines have no leading or
trailing space, tab or CR and whose lines after the first do not start with
`#`, `parseParagraphs` on `k: ` followed by the escaped `v` and a newline
returns no error and exactly one paragraph, with `Order = [k]` and
`Values = {k: v}`. -/
theorem escape_parse_roundtrip (k v : Str)
    (hk1 : ':' ∉ k) (hk2 : '\n' ∉ k) (hk3 : Trim k [' ', '\t', '\r'] = k)
    (hk4 : k.head? ≠ some '#')
    (hv1 : ¬ ['\n', '\n'] <:+: v)
    (hv2 : ∀ l ∈ (lines v).1 :: (lines v).2, Trim l [' ', '\t', '\r'] = l)
    (hv3 : ∀ l ∈ (lines v).2, l.head? ≠ some '#') :
    parseParagraphs (k ++ ':' :: ' ' :: dotEncodeValue v ++ ['\n']) =
      Outcome.ret ([{ Values := [(k, v)], Order := [k] }], none) := by
  have hn := lines_no_newline v
  have hk : wellFormedKey k := ⟨by rw [Trim_noop_eq k hk2]; exact hk3, hk1, hk2, hk4⟩
  have hv : cleanValue v :=
    ⟨⟨hn.1, by rw [Trim_noop_eq _ hn.1]; exact hv2 _ (by simp)⟩,
      fun l hl => ⟨⟨hn.2 l hl, by rw [Trim_noop_eq _ (hn.2 l hl)]; exact hv2 l (by simp [hl])⟩,
        hv3 l hl⟩⟩
  have := parseParagraphs_escapedField k v hk hv
  rw [readBack_eq_self v hv1] at this
  exact this

theorem escape_parse_roundtrip_witness :
    dotEncodeValue "short\nlong: text\nend".toList = "short\n long: text\n end".toList ∧
      parseParagraphs ("Description".toList ++ ':' :: ' ' ::
          dotEncodeValue "short\nlong: text\nend".toList ++ ['\n']) =
        Outcome.ret ([{ Values := [("Description".toList, "short\nlong: text\nend".toList)],
                        Order := ["Description".toList] }], none) :=
  ⟨by decide, escape_parse_roundtrip "Description".toList "short\nlong: text\nend".toList
    (by decide) (by decide) (by decide) (by decide) (by decide) (by decide) (by decide)⟩


end Control
